import Mathlib

/-!
# A verification development for the sphere path tracer

The C++ sources (`vec3.h`, `ray.h`, `hittable.h`, `sphere.h`, `hittable_list.h`,
`material.h`, `utility.h`, `camera.h`, `main.cpp`) are embedded over an arbitrary linearly
ordered field `F` standing for exact real arithmetic in place of `double`.

* `std::sqrt` is an explicit parameter `sqrt : F → F` of every function that calls it;
  theorems that depend on what a square root is assume `IsSqrt sqrt`, which
  `Real.sqrt` satisfies (`real_isSqrt`).
* `std::tan` is likewise a parameter `tan : F → F` of the camera constructor; nothing is
  assumed of it.
* `fabs` is `|·|`, `fmin` is `min`, `pow(x, 5)` is `x ^ 5`, `1e-8` is `1 / 100000000`;
  decimal literals are the rationals they spell.
* `int` values (`depth`, the image and sample counts) are integers.
* The upper end `t_max` of a search range has type `WithTop F`, because the integrator
  passes the value `infinity` there; every other `double` is an element of `F`.
* A function that writes through a `hit_record&`, `Color&` or `Ray&` parameter returns
  the new contents next to its `bool` result; it takes the old contents as an argument
  when some path leaves them untouched (`hit`), and not when every path assigns them
  (`scatter`).
* The value returned by a random source (`random_unit_vector()`,
  `random_in_unit_sphere()`, `random_double()`) is an explicit argument.
* `shared_ptr<Material>` is an arbitrary type `M` of material handles: the geometry
  only copies the handle.
-/

namespace Raytracer

/-- The class `Vec3`: three `double` components `v[0]`, `v[1]`, `v[2]`, named after the
accessors `x()`, `y()`, `z()`. -/
@[ext]
structure Vec3 (F : Type) where
  x : F
  y : F
  z : F

/-- The class `Ray`: an origin and a direction. -/
structure Ray (F : Type) where
  orig : Vec3 F
  dir : Vec3 F

/-- The struct `hit_record` of `hittable.h`. -/
structure hit_record (F M : Type) where
  p : Vec3 F
  normal : Vec3 F
  mat_ptr : M
  t : F
  inward : Bool

/-- The class `Sphere`: centre, radius (any sign) and material handle. -/
structure Sphere (F M : Type) where
  center : Vec3 F
  radius : F
  mat_ptr : M

variable {F : Type} [LinearOrderedField F] {M : Type}

/-- What the development assumes of `std::sqrt` on non-negative arguments. -/
def IsSqrt (sqrt : F → F) : Prop :=
  ∀ x : F, 0 ≤ x → 0 ≤ sqrt x ∧ sqrt x * sqrt x = x

namespace Vec3

/-- `Vec3::operator-() const`. -/
instance : Neg (Vec3 F) where
  neg u := Vec3.mk (-u.x) (-u.y) (-u.z)

/-- `operator+(const Vec3&, const Vec3&)`. -/
instance : Add (Vec3 F) where
  add u v := Vec3.mk (u.x + v.x) (u.y + v.y) (u.z + v.z)

/-- `operator-(const Vec3&, const Vec3&)`. -/
instance : Sub (Vec3 F) where
  sub u v := Vec3.mk (u.x - v.x) (u.y - v.y) (u.z - v.z)

/-- `operator*(const Vec3&, const Vec3&)`: the component-wise product. -/
instance : Mul (Vec3 F) where
  mul u v := Vec3.mk (u.x * v.x) (u.y * v.y) (u.z * v.z)

/-- `operator*(double t, const Vec3& v)`. -/
instance : HMul F (Vec3 F) (Vec3 F) where
  hMul t v := Vec3.mk (t * v.x) (t * v.y) (t * v.z)

/-- `operator*(const Vec3& v, double t)`, which returns `t * v`. -/
instance : HMul (Vec3 F) F (Vec3 F) where
  hMul v t := t * v

/-- `operator/(Vec3 v, double t)`, which returns `(1/t) * v`. -/
instance : HDiv (Vec3 F) F (Vec3 F) where
  hDiv v t := (1 / t) * v

/-- `Vec3::length_squared`. -/
def length_squared (v : Vec3 F) : F :=
  v.x * v.x + v.y * v.y + v.z * v.z

/-- `Vec3::length`. -/
def length (sqrt : F → F) (v : Vec3 F) : F :=
  sqrt v.length_squared

/-- `Vec3::near_zero`: every component is below `1e-8` in absolute value. -/
def near_zero (v : Vec3 F) : Bool :=
  let s : F := 1 / 100000000
  decide (|v.x| < s) && decide (|v.y| < s) && decide (|v.z| < s)

end Vec3

/-- The free function `dot`. -/
def dot (u v : Vec3 F) : F :=
  u.x * v.x + u.y * v.y + u.z * v.z

/-- The free function `cross`. -/
def cross (u v : Vec3 F) : Vec3 F :=
  Vec3.mk (u.y * v.z - u.z * v.y) (u.z * v.x - u.x * v.z) (u.x * v.y - u.y * v.x)

/-- The free function `unit_vector`: `v / v.length()`. -/
def unit_vector (sqrt : F → F) (v : Vec3 F) : Vec3 F :=
  v / v.length sqrt

/-- The free function `reflect`. -/
def reflect (v n : Vec3 F) : Vec3 F :=
  let b : Vec3 F := (-(dot v n)) * n
  v + (2 : F) * b

/-- The free function `refract`. -/
def refract (sqrt : F → F) (v n : Vec3 F) (eta_ratio : F) : Vec3 F :=
  let cos_theta : F := min (dot (-v) n) 1
  let ray_perp : Vec3 F := eta_ratio * (v + cos_theta * n)
  let ray_parallel : Vec3 F := (-(sqrt |1 - ray_perp.length_squared|)) * n
  ray_perp + ray_parallel

namespace Ray

/-- `Ray::origin`. -/
def origin (r : Ray F) : Vec3 F := r.orig

/-- `Ray::direction`. -/
def direction (r : Ray F) : Vec3 F := r.dir

/-- `Ray::at` (the name `at` is reserved in Lean): the point `orig + t*dir`. -/
def at_ (r : Ray F) (t : F) : Vec3 F :=
  r.orig + t * r.dir

end Ray

/-- `hit_record::set_face_normal`: writes the fields `inward` and `normal`. -/
def hit_record.set_face_normal (rec : hit_record F M) (r : Ray F)
    (outward_normal : Vec3 F) : hit_record F M :=
  let inward : Bool := decide (dot r.direction outward_normal < 0)
  { rec with inward := inward, normal := if inward then outward_normal else -outward_normal }

/-- The test `root < t_min || root > t_max` of `Sphere::hit`. -/
def Sphere.out_of_range (root t_min : F) (t_max : WithTop F) : Bool :=
  decide (root < t_min) || decide (t_max < (root : WithTop F))

/-- Lines 43-55 of `Sphere::hit`: fill the record for the accepted `root`. -/
def Sphere.fill_record (s : Sphere F M) (r : Ray F) (root : F) (rec : hit_record F M) :
    Bool × hit_record F M :=
  let rec1 : hit_record F M := { rec with t := root }
  let rec2 : hit_record F M := { rec1 with p := r.at_ rec1.t }
  let outward_normal : Vec3 F := (rec2.p - s.center) / s.radius
  let rec3 : hit_record F M := rec2.set_face_normal r outward_normal
  let rec4 : hit_record F M := { rec3 with mat_ptr := s.mat_ptr }
  (true, rec4)

/-- `Sphere::hit`: the `bool` result and the contents of `rec` afterwards. -/
def Sphere.hit (sqrt : F → F) (s : Sphere F M) (r : Ray F) (t_min : F) (t_max : WithTop F)
    (rec : hit_record F M) : Bool × hit_record F M :=
  let a : F := r.direction.length_squared
  let vec_ac : Vec3 F := r.origin - s.center
  let half_b : F := dot r.direction vec_ac
  let c : F := vec_ac.length_squared - s.radius * s.radius
  let discriminant : F := half_b * half_b - a * c
  if discriminant < 0 then (false, rec)
  else
    let sqrt_discriminant : F := sqrt discriminant
    let root : F := (-half_b - sqrt_discriminant) / a
    if Sphere.out_of_range root t_min t_max then
      let root : F := (-half_b + sqrt_discriminant) / a
      if Sphere.out_of_range root t_min t_max then (false, rec)
      else Sphere.fill_record s r root rec
    else Sphere.fill_record s r root rec

/-- The class `HittableList`: the vector `objects`. Its members are spheres, the one
geometric primitive of the program. -/
structure HittableList (F M : Type) where
  objects : List (Sphere F M)

/-- The local variables of `HittableList::hit` together with its reference parameter
`rec` (the field `rec_`). -/
structure HitLoop (F M : Type) where
  t_closest : WithTop F
  hit_anything : Bool
  temp_rec : hit_record F M
  rec_ : hit_record F M

/-- `HittableList::add`: `objects.push_back(object)`. -/
def HittableList.add (l : HittableList F M) (object : Sphere F M) : HittableList F M :=
  HittableList.mk (l.objects ++ [object])

/-- One iteration of the loop of `HittableList::hit` (lines 32-42). -/
def HittableList.hit_step (sqrt : F → F) (r : Ray F) (t_min : F) (st : HitLoop F M)
    (object : Sphere F M) : HitLoop F M :=
  let res : Bool × hit_record F M := object.hit sqrt r t_min st.t_closest st.temp_rec
  if res.1 then
    { hit_anything := true, t_closest := (res.2.t : WithTop F), temp_rec := res.2, rec_ := res.2 }
  else
    { st with temp_rec := res.2 }

/-- `HittableList::hit`. The declaration `hit_record temp_rec;` leaves fields of
`temp_rec` indeterminate, so its initial contents are the argument `temp_rec`; `rec` is
the caller's record. The result is `hit_anything` and the contents of `rec` afterwards. -/
def HittableList.hit (sqrt : F → F) (l : HittableList F M) (r : Ray F) (t_min : F)
    (t_max : WithTop F) (temp_rec rec : hit_record F M) : Bool × hit_record F M :=
  let st : HitLoop F M :=
    l.objects.foldl (HittableList.hit_step sqrt r t_min)
      { t_closest := t_max, hit_anything := false, temp_rec := temp_rec, rec_ := rec }
  (st.hit_anything, st.rec_)

/-- The class `Lambertian`. -/
structure Lambertian (F : Type) where
  albedo : Vec3 F

/-- The class `Metal`. -/
structure Metal (F : Type) where
  albedo : Vec3 F
  fuzz : F

/-- The class `Dielectric`. -/
structure Dielectric (F : Type) where
  refraction_index : F

/-- `Lambertian::scatter`. The argument `q` is the value returned by
`random_unit_vector()`. Both reference parameters are assigned on every path, so the
result is the `bool`, the new `attenuation` and the new `scattered`. -/
def Lambertian.scatter (m : Lambertian F) (_incoming : Ray F) (rec : hit_record F M)
    (q : Vec3 F) : Bool × Vec3 F × Ray F :=
  let scatter_direction : Vec3 F := rec.normal + q
  let scatter_direction : Vec3 F :=
    if scatter_direction.near_zero then rec.normal else scatter_direction
  let scattered : Ray F := Ray.mk rec.p scatter_direction
  let attenuation : Vec3 F := m.albedo
  (true, attenuation, scattered)

/-- The constructor `Metal(const Color& a, double f)`. -/
def Metal.new (a : Vec3 F) (f : F) : Metal F :=
  Metal.mk a (if f < 1 then f else 1)

/-- `Metal::scatter`. The argument `q` is the value returned by
`random_in_unit_sphere()`. -/
def Metal.scatter (sqrt : F → F) (m : Metal F) (incoming : Ray F) (rec : hit_record F M)
    (q : Vec3 F) : Bool × Vec3 F × Ray F :=
  let reflected_direction : Vec3 F := reflect (unit_vector sqrt incoming.direction) rec.normal
  let scattered : Ray F := Ray.mk rec.p (reflected_direction + m.fuzz * q)
  let attenuation : Vec3 F := m.albedo
  (decide (dot scattered.direction rec.normal > 0), attenuation, scattered)

/-- `Dielectric::reflectance`: Schlick's approximation. -/
def Dielectric.reflectance (cosine ref_idx : F) : F :=
  let r0 : F := (1 - ref_idx) / (1 + ref_idx)
  let r0 : F := r0 * r0
  r0 + (1 - r0) * (1 - cosine) ^ 5

/-- `Dielectric::scatter`. The argument `x` is the value returned by `random_double()`. -/
def Dielectric.scatter (sqrt : F → F) (m : Dielectric F) (incoming : Ray F)
    (rec : hit_record F M) (x : F) : Bool × Vec3 F × Ray F :=
  let attenuation : Vec3 F := Vec3.mk 1 1 1
  let eta_ratio : F := if rec.inward then 1 / m.refraction_index else m.refraction_index
  let unit_incoming_dir : Vec3 F := unit_vector sqrt incoming.direction
  let cos_theta : F := min (dot (-unit_incoming_dir) rec.normal) 1
  let sin_theta : F := sqrt (1 - cos_theta * cos_theta)
  let cannot_refract : Bool := decide (eta_ratio * sin_theta > 1)
  let out_direction : Vec3 F :=
    if cannot_refract || decide (Dielectric.reflectance cos_theta eta_ratio > x) then
      reflect unit_incoming_dir rec.normal
    else
      refract sqrt unit_incoming_dir rec.normal eta_ratio
  let scattered : Ray F := Ray.mk rec.p out_direction
  (true, attenuation, scattered)

/-! ## Materials behind a pointer, the integrator, the camera and the output conversion -/

/-- What `shared_ptr<Material>` points to: one of the three classes that derive from
`Material`. -/
inductive Material (F : Type) where
  | lambertian (m : Lambertian F)
  | metal (m : Metal F)
  | dielectric (m : Dielectric F)

/-- The values the random source hands to one call of `scatter`: the result of
`random_unit_vector()` (read by `Lambertian`), of `random_in_unit_sphere()` (read by
`Metal`) and of `random_double()` (read by `Dielectric`). -/
structure Draw (F : Type) where
  unit_vector : Vec3 F
  in_unit_sphere : Vec3 F
  double : F

/-- The virtual call `mat_ptr->scatter(incoming, rec, attenuation, scattered)`. -/
def Material.scatter (sqrt : F → F) (mat : Material F) (incoming : Ray F)
    (rec : hit_record F M) (d : Draw F) : Bool × Vec3 F × Ray F :=
  match mat with
  | Material.lambertian m => m.scatter incoming rec d.unit_vector
  | Material.metal m => m.scatter sqrt incoming rec d.in_unit_sphere
  | Material.dielectric m => m.scatter sqrt incoming rec d.double

/-- `ray_color` of `main.cpp`. `rnd depth` holds the random values drawn by the `scatter`
call made at recursion budget `depth`; `uninit` is the indeterminate initial content of
the locals `hit_record rec;` and `hit_record temp_rec;`. The constant `infinity` is `⊤`,
`0.001` is `1/1000`, `0.5` is `1/2` and `0.7` is `7/10`. -/
def ray_color (sqrt : F → F) (rnd : ℤ → Draw F) (uninit : hit_record F (Material F))
    (r : Ray F) (scene : HittableList F (Material F)) (depth : ℤ) : Vec3 F :=
  if hdepth : depth ≤ 0 then Vec3.mk 0 0 0
  else
    let res : Bool × hit_record F (Material F) := scene.hit sqrt r (1 / 1000) ⊤ uninit uninit
    if res.1 then
      let sc : Bool × Vec3 F × Ray F := res.2.mat_ptr.scatter sqrt r res.2 (rnd depth)
      if sc.1 then sc.2.1 * ray_color sqrt rnd uninit sc.2.2 scene (depth - 1)
      else Vec3.mk 0 0 0
    else
      let unit_direction : Vec3 F := unit_vector sqrt r.direction
      let t : F := 1 / 2 * (unit_direction.y + 1)
      (1 - t) * (Vec3.mk 1 1 1 : Vec3 F) + t * (Vec3.mk (1 / 2) (7 / 10) 1 : Vec3 F)
termination_by depth.toNat
decreasing_by omega

/-- The constant `pi` of `utility.h`. -/
def pi : F := 31415926535897932385 / 10000000000000000000

/-- `degrees_to_radians`. -/
def degrees_to_radians (degrees : F) : F :=
  degrees * pi / 180

/-- `clamp`. -/
def clamp (x min max : F) : F :=
  if x < min then min else if x > max then max else x

/-- The class `Camera`. -/
structure Camera (F : Type) where
  origin : Vec3 F
  upper_left_corner : Vec3 F
  horizontal : Vec3 F
  vertical : Vec3 F
  u : Vec3 F
  v : Vec3 F
  w : Vec3 F
  lens_radius : F

/-- The constructor `Camera::Camera`; `tan` stands for `std::tan`. -/
def Camera.new (sqrt tan : F → F) (look_from look_at view_up : Vec3 F)
    (vertical_fov aspect_ratio aperture focus_dist : F) : Camera F :=
  let h : F := tan (degrees_to_radians (vertical_fov / 2))
  let viewport_height : F := h * 2
  let viewport_width : F := viewport_height * aspect_ratio
  let w : Vec3 F := unit_vector sqrt (look_from - look_at)
  let u : Vec3 F := unit_vector sqrt (cross view_up w)
  let v : Vec3 F := cross w u
  let origin : Vec3 F := look_from
  let horizontal : Vec3 F := (viewport_width * focus_dist) * u
  let vertical : Vec3 F := (viewport_height * focus_dist) * v
  let upper_left_corner : Vec3 F := origin - horizontal / (2 : F) + vertical / (2 : F) - focus_dist * w
  { origin := origin, upper_left_corner := upper_left_corner, horizontal := horizontal,
    vertical := vertical, u := u, v := v, w := w, lens_radius := aperture / 2 }

/-- `Camera::get_ray`. The argument `disk` is the value returned by
`random_in_unit_disk()`. The arithmetic is exact: an identity such as
`origin + (target - origin) = target` holds here, while in `double` the subtraction and
the addition each round. -/
def Camera.get_ray (cam : Camera F) (s t : F) (disk : Vec3 F) : Ray F :=
  let random : Vec3 F := cam.lens_radius * disk
  let offset : Vec3 F := random.x * cam.u + random.y * cam.v
  let offset_origin : Vec3 F := cam.origin + offset
  Ray.mk offset_origin
    ((cam.upper_left_corner + s * cam.horizontal - (1 - t) * cam.vertical) - offset_origin)

/-- The random values consumed by one iteration of the sample loop of `main`: the two
calls of `random_double()`, the lens sample of `get_ray` and the draws of `ray_color`. -/
structure SampleDraws (F : Type) where
  du : F
  dv : F
  disk : Vec3 F
  bounce : ℤ → Draw F

/-- Lines 170-180 of `main`: the colour accumulated for pixel `(i, j)` over
`samples_per_pixel` samples, `pixel_color += c` being `pixel_color + c`. -/
def pixel_color (sqrt : F → F) (cam : Camera F) (scene : HittableList F (Material F))
    (uninit : hit_record F (Material F)) (image_width image_height samples_per_pixel
    max_depth i j : ℤ) (smp : ℕ → SampleDraws F) : Vec3 F :=
  (List.range samples_per_pixel.toNat).foldl
    (fun (pixel_color : Vec3 F) (k : ℕ) =>
      let u : F := ((i : F) + (smp k).du) / ((image_width : F) - 1)
      let v : F := ((j : F) + (smp k).dv) / ((image_height : F) - 1)
      let r : Ray F := cam.get_ray u v (smp k).disk
      pixel_color + ray_color sqrt (smp k).bounce uninit r scene max_depth)
    (Vec3.mk 0 0 0)

/-- Modelled from the spec: `write_color` lives in `color.h`, which is not among the
sources. One channel of the per-pixel conversion: average the accumulated value `c` over
`samples_per_pixel`, take the square root (gamma 2), clamp to `[0, 0.999]`, multiply by
256 and truncate to an integer. -/
def write_color_channel [FloorRing F] (sqrt : F → F) (c : F) (samples_per_pixel : ℤ) : ℤ :=
  let averaged : F := c / (samples_per_pixel : F)
  let scaled : F := 256 * clamp (sqrt averaged) 0 (999 / 1000)
  if 0 ≤ scaled then ⌊scaled⌋ else ⌈scaled⌉

/-! ## Auxiliary definitions used in statements and proofs -/

/-- The root that lines 22-41 of `Sphere::hit` accept, `none` when the function returns
false there. `Sphere.hit_eq` shows that `Sphere.hit` is this choice followed by the filling
of the record. -/
def Sphere.accepted_root (sqrt : F → F) (s : Sphere F M) (r : Ray F) (t_min : F)
    (t_max : WithTop F) : Option F :=
  let a : F := r.direction.length_squared
  let vec_ac : Vec3 F := r.origin - s.center
  let half_b : F := dot r.direction vec_ac
  let c : F := vec_ac.length_squared - s.radius * s.radius
  let discriminant : F := half_b * half_b - a * c
  if discriminant < 0 then none
  else
    let sqrt_discriminant : F := sqrt discriminant
    let root : F := (-half_b - sqrt_discriminant) / a
    if Sphere.out_of_range root t_min t_max then
      let root : F := (-half_b + sqrt_discriminant) / a
      if Sphere.out_of_range root t_min t_max then none
      else some root
    else some root

/-- The member `s` on its own reports the record `h`: `s.hit(r, t_min, t_max, rec)` returns
true and leaves `h` in `rec`. (The record left does not depend on the old contents,
`Sphere.reports_iff`.) -/
def Sphere.reports (sqrt : F → F) (s : Sphere F M) (r : Ray F) (t_min : F) (t_max : WithTop F)
    (h : hit_record F M) : Prop :=
  ∃ rec0 : hit_record F M, s.hit sqrt r t_min t_max rec0 = (true, h)

/-- The loop invariant of `HittableList::hit` after the members `seen` have been visited,
`rec` being the caller's record on entry. -/
def HittableList.LoopInv (sqrt : F → F) (r : Ray F) (t_min : F) (t_max : WithTop F)
    (rec : hit_record F M) (seen : List (Sphere F M)) (st : HitLoop F M) : Prop :=
  (st.hit_anything = false →
      st.t_closest = t_max ∧ st.rec_ = rec ∧
        ∀ m ∈ seen, ∀ h : hit_record F M, ¬ m.reports sqrt r t_min t_max h) ∧
    (st.hit_anything = true →
      st.t_closest = (st.rec_.t : WithTop F) ∧ (st.rec_.t : WithTop F) ≤ t_max ∧
        (∃ m ∈ seen, m.reports sqrt r t_min t_max st.rec_) ∧
        ∀ m ∈ seen, ∀ h : hit_record F M, m.reports sqrt r t_min t_max h → st.rec_.t ≤ h.t)

/-- Every component of the colour lies in `[0, 1]`. -/
def Vec3.in_unit_cube (v : Vec3 F) : Prop :=
  (0 ≤ v.x ∧ v.x ≤ 1) ∧ (0 ≤ v.y ∧ v.y ≤ 1) ∧ (0 ≤ v.z ∧ v.z ≤ 1)

/-- The albedo of a `Lambertian` or `Metal` material lies in the unit cube; a `Dielectric`
has no albedo and is unrestricted. -/
def Material.albedo_in_unit_cube (mat : Material F) : Prop :=
  match mat with
  | Material.lambertian m => m.albedo.in_unit_cube
  | Material.metal m => m.albedo.in_unit_cube
  | Material.dielectric _ => True

/-! ## Concrete data used to exercise the definitions -/

/-- The unit sphere at the origin with material handle `m`. -/
def unit_sphere (m : M) : Sphere F M :=
  Sphere.mk (Vec3.mk 0 0 0) 1 m

/-- The ray from `(0,0,-3)` along `(0,0,1)`. -/
def z_ray : Ray F :=
  Ray.mk (Vec3.mk 0 0 (-3)) (Vec3.mk 0 0 1)

/-- A record with every numeric field zero. -/
def blank_record (m : M) : hit_record F M :=
  hit_record.mk (Vec3.mk 0 0 0) (Vec3.mk 0 0 0) m 0 false

/-- The unit sphere centred at `(0,0,-2)`; it touches `unit_sphere` at `(0,0,-1)`. -/
def tangent_sphere (m : M) : Sphere F M :=
  Sphere.mk (Vec3.mk 0 0 (-2)) 1 m

/-- The unit sphere centred at `(5,0,0)`, which `z_ray` misses. -/
def side_sphere (m : M) : Sphere F M :=
  Sphere.mk (Vec3.mk 5 0 0) 1 m

/-- A diffuse grey material. -/
def gray : Material F :=
  Material.lambertian (Lambertian.mk (Vec3.mk (1 / 2) (1 / 2) (1 / 2)))

/-- The scene holding one grey unit sphere at the origin. -/
def gray_scene : HittableList F (Material F) :=
  HittableList.mk [unit_sphere gray]

/-- A random source whose every draw is zero. -/
def zero_draw : ℤ → Draw F :=
  fun _ => Draw.mk (Vec3.mk 0 0 0) (Vec3.mk 0 0 0) 0

/-- Sample draws that are all zero. -/
def zero_samples : ℕ → SampleDraws F :=
  fun _ => SampleDraws.mk 0 0 (Vec3.mk 0 0 0) zero_draw

/-- The camera at `(0,0,1)` looking at the origin with `view_up = (0,1,0)`, a vertical
field of view of 90 degrees, aspect ratio 1 and focus distance 1. -/
def example_camera (sqrt tan : F → F) (aperture : F) : Camera F :=
  Camera.new sqrt tan (Vec3.mk 0 0 1) (Vec3.mk 0 0 0) (Vec3.mk 0 1 0) 90 1 aperture 1

/-- The sphere of radius `-1` at the origin: a hollow shell. -/
def hollow_sphere (m : M) : Sphere F M :=
  Sphere.mk (Vec3.mk 0 0 0) (-1) m

/-! ## Component lemmas -/

namespace Vec3

@[simp]
theorem neg_x (u : Vec3 F) : (-u).x = -u.x := rfl

@[simp]
theorem neg_y (u : Vec3 F) : (-u).y = -u.y := rfl

@[simp]
theorem neg_z (u : Vec3 F) : (-u).z = -u.z := rfl

@[simp]
theorem add_x (u v : Vec3 F) : (u + v).x = u.x + v.x := rfl

@[simp]
theorem add_y (u v : Vec3 F) : (u + v).y = u.y + v.y := rfl

@[simp]
theorem add_z (u v : Vec3 F) : (u + v).z = u.z + v.z := rfl

@[simp]
theorem sub_x (u v : Vec3 F) : (u - v).x = u.x - v.x := rfl

@[simp]
theorem sub_y (u v : Vec3 F) : (u - v).y = u.y - v.y := rfl

@[simp]
theorem sub_z (u v : Vec3 F) : (u - v).z = u.z - v.z := rfl

@[simp]
theorem smul_x (t : F) (v : Vec3 F) : (t * v).x = t * v.x := rfl

@[simp]
theorem smul_y (t : F) (v : Vec3 F) : (t * v).y = t * v.y := rfl

@[simp]
theorem smul_z (t : F) (v : Vec3 F) : (t * v).z = t * v.z := rfl

@[simp]
theorem div_x (v : Vec3 F) (t : F) : (v / t).x = 1 / t * v.x := rfl

@[simp]
theorem div_y (v : Vec3 F) (t : F) : (v / t).y = 1 / t * v.y := rfl

@[simp]
theorem div_z (v : Vec3 F) (t : F) : (v / t).z = 1 / t * v.z := rfl

end Vec3

/-- The real square root meets the assumption made of `std::sqrt`. -/
theorem real_isSqrt : IsSqrt Real.sqrt := by
  intro x hx
  exact ⟨Real.sqrt_nonneg x, Real.mul_self_sqrt hx⟩

/-- A ray with a non-zero direction has `a = |dir|^2 > 0`. -/
theorem length_squared_pos (v : Vec3 F) (hv : v ≠ Vec3.mk 0 0 0) : 0 < v.length_squared := by
  unfold Vec3.length_squared
  by_contra h
  have hx : v.x = 0 := by nlinarith [mul_self_nonneg v.x, mul_self_nonneg v.y, mul_self_nonneg v.z]
  have hy : v.y = 0 := by nlinarith [mul_self_nonneg v.x, mul_self_nonneg v.y, mul_self_nonneg v.z]
  have hz : v.z = 0 := by nlinarith [mul_self_nonneg v.x, mul_self_nonneg v.y, mul_self_nonneg v.z]
  exact hv (Vec3.ext hx hy hz)

/-! ## Sphere intersection -/

@[simp]
theorem Sphere.out_of_range_eq_false (root t_min : F) (t_max : WithTop F) :
    Sphere.out_of_range root t_min t_max = false ↔ t_min ≤ root ∧ (root : WithTop F) ≤ t_max := by
  simp [Sphere.out_of_range]

@[simp]
theorem Sphere.out_of_range_eq_true (root t_min : F) (t_max : WithTop F) :
    Sphere.out_of_range root t_min t_max = true ↔ ¬ (t_min ≤ root ∧ (root : WithTop F) ≤ t_max) := by
  rw [← Sphere.out_of_range_eq_false, Bool.not_eq_false]

@[simp]
theorem Sphere.fill_record_fst (s : Sphere F M) (r : Ray F) (root : F) (rec : hit_record F M) :
    (Sphere.fill_record s r root rec).1 = true := rfl

@[simp]
theorem Sphere.fill_record_t (s : Sphere F M) (r : Ray F) (root : F) (rec : hit_record F M) :
    (Sphere.fill_record s r root rec).2.t = root := rfl

@[simp]
theorem Sphere.fill_record_p (s : Sphere F M) (r : Ray F) (root : F) (rec : hit_record F M) :
    (Sphere.fill_record s r root rec).2.p = r.at_ root := rfl

/-- The smaller root is the one with the minus sign. -/
theorem Sphere.root_le_root (sqrt : F → F) (hs : IsSqrt sqrt) (a half_b disc : F) (ha : 0 ≤ a)
    (hdisc : 0 ≤ disc) : (-half_b - sqrt disc) / a ≤ (-half_b + sqrt disc) / a := by
  have h := (hs disc hdisc).1
  exact div_le_div_of_nonneg_right (by linarith) ha

/-- C1: `Sphere::hit` returns true exactly when the discriminant is non-negative and one
of the two roots `(-half_b ± sqrt disc)/a` lies in `[t_min, t_max]`; then `rec.t` is the
root with the minus sign when that one is in range and the root with the plus sign
otherwise, and the root with the minus sign is the smaller of the two. -/
theorem Sphere_hit_iff_root_in_range (sqrt : F → F) (hs : IsSqrt sqrt) (s : Sphere F M)
    (r : Ray F) (hd : r.direction ≠ Vec3.mk 0 0 0) (t_min : F) (t_max : WithTop F)
    (rec : hit_record F M) :
    let a : F := r.direction.length_squared
    let half_b : F := dot r.direction (r.origin - s.center)
    let c : F := (r.origin - s.center).length_squared - s.radius * s.radius
    let disc : F := half_b * half_b - a * c
    let root1 : F := (-half_b - sqrt disc) / a
    let root2 : F := (-half_b + sqrt disc) / a
    let in_range : F → Prop := fun t => t_min ≤ t ∧ (t : WithTop F) ≤ t_max
    ((s.hit sqrt r t_min t_max rec).1 = true ↔
        0 ≤ disc ∧ (in_range root1 ∨ in_range root2)) ∧
      ((s.hit sqrt r t_min t_max rec).1 = true →
        (in_range root1 → (s.hit sqrt r t_min t_max rec).2.t = root1) ∧
        (¬ in_range root1 → (s.hit sqrt r t_min t_max rec).2.t = root2)) ∧
      (0 ≤ disc → root1 ≤ root2) := by
  intro a half_b c disc root1 root2 in_range
  have ha : 0 ≤ a := le_of_lt (length_squared_pos r.direction hd)
  have key : s.hit sqrt r t_min t_max rec =
      if disc < 0 then (false, rec)
      else if Sphere.out_of_range root1 t_min t_max then
        if Sphere.out_of_range root2 t_min t_max then (false, rec)
        else Sphere.fill_record s r root2 rec
      else Sphere.fill_record s r root1 rec := rfl
  refine ⟨?_, ?_, fun h => Sphere.root_le_root sqrt hs a half_b disc ha h⟩
  · rw [key]
    split_ifs with h1 h2 h3
    · simp [not_le.mpr h1]
    · rw [Sphere.out_of_range_eq_true] at h2 h3
      simp [in_range, h2, h3]
    · rw [Sphere.out_of_range_eq_true] at h2
      simp only [Bool.not_eq_true, Sphere.out_of_range_eq_false] at h3
      simp [in_range, h3, not_lt.mp h1]
    · simp only [Bool.not_eq_true, Sphere.out_of_range_eq_false] at h2
      simp [in_range, h2, not_lt.mp h1]
  · rw [key]
    split_ifs with h1 h2 h3
    · simp
    · simp
    · rw [Sphere.out_of_range_eq_true] at h2
      intro _
      exact ⟨fun h => absurd h h2, fun _ => rfl⟩
    · simp only [Bool.not_eq_true, Sphere.out_of_range_eq_false] at h2
      intro _
      exact ⟨fun _ => rfl, fun h => absurd h2 h⟩

/-- C1 at a concrete input: the ray from `(0,0,-3)` along `(0,0,1)` meets the unit sphere
at the origin with discriminant `1` and roots `2` and `4`; the reported parameter is `2`. -/
theorem Sphere_hit_iff_root_in_range_witness :
    IsSqrt Real.sqrt ∧ (z_ray : Ray ℝ).direction ≠ Vec3.mk 0 0 0 ∧
      ((unit_sphere (7 : ℕ)).hit Real.sqrt (z_ray : Ray ℝ) 0 10 (blank_record 0)).1 = true ∧
      ((unit_sphere (7 : ℕ)).hit Real.sqrt (z_ray : Ray ℝ) 0 10 (blank_record 0)).2.t = 2 := by
  have hd : (z_ray : Ray ℝ).direction ≠ Vec3.mk 0 0 0 := by
    simp [Ray.direction, z_ray]
  have h := Sphere_hit_iff_root_in_range Real.sqrt real_isSqrt (unit_sphere (7 : ℕ))
    (z_ray : Ray ℝ) hd 0 10 (blank_record 0)
  simp only [Ray.direction, Ray.origin, Vec3.length_squared, dot, Vec3.sub_x, Vec3.sub_y,
    Vec3.sub_z, z_ray, unit_sphere] at h
  norm_num at h
  have h12 : (2 : WithTop ℝ) ≤ 10 := by exact_mod_cast (by norm_num : (2 : ℝ) ≤ 10)
  have ht := h.1.mpr (Or.inl h12)
  exact ⟨real_isSqrt, hd, ht, (h.2 ht).1 h12⟩

/-- The squared distance from `r.at(t)` to a point `C` is the quadratic in `t` whose
coefficients `Sphere::hit` computes. -/
theorem Ray.at_length_squared (r : Ray F) (C : Vec3 F) (t : F) :
    (r.at_ t - C).length_squared =
      r.direction.length_squared * t * t + 2 * dot r.direction (r.origin - C) * t +
        (r.origin - C).length_squared := by
  simp only [Ray.at_, Ray.direction, Ray.origin, Vec3.length_squared, dot, Vec3.sub_x,
    Vec3.sub_y, Vec3.sub_z, Vec3.add_x, Vec3.add_y, Vec3.add_z, Vec3.smul_x, Vec3.smul_y,
    Vec3.smul_z]
  ring

/-- Either root of the quadratic solves it, provided `a ≠ 0` and `sq` squares to the
discriminant. -/
theorem Sphere.quadratic_root (a half_b c sq t : F) (ha : a ≠ 0)
    (hsq : sq * sq = half_b * half_b - a * c)
    (ht : t = (-half_b - sq) / a ∨ t = (-half_b + sq) / a) :
    a * t * t + 2 * half_b * t + c = 0 := by
  have h0 : a * (a * t * t + 2 * half_b * t + c) = 0 := by
    rcases ht with ht | ht
    · have h1 : a * t = -half_b - sq := by rw [ht]; field_simp
      linear_combination (a * t + half_b - sq) * h1 + hsq
    · have h1 : a * t = -half_b + sq := by rw [ht]; field_simp
      linear_combination (a * t + half_b + sq) * h1 + hsq
  rcases mul_eq_zero.mp h0 with h | h
  · exact absurd h ha
  · exact h

/-- The two outcomes of `Sphere::hit`: either it returns false and leaves `rec` alone, or
it returns true with the record filled for one of the two roots, the discriminant being
non-negative. -/
theorem Sphere.hit_cases (sqrt : F → F) (s : Sphere F M) (r : Ray F) (t_min : F)
    (t_max : WithTop F) (rec : hit_record F M) :
    let a : F := r.direction.length_squared
    let half_b : F := dot r.direction (r.origin - s.center)
    let c : F := (r.origin - s.center).length_squared - s.radius * s.radius
    let disc : F := half_b * half_b - a * c
    s.hit sqrt r t_min t_max rec = (false, rec) ∨
      (0 ≤ disc ∧ ∃ root : F, (root = (-half_b - sqrt disc) / a ∨ root = (-half_b + sqrt disc) / a) ∧
        t_min ≤ root ∧ (root : WithTop F) ≤ t_max ∧
        s.hit sqrt r t_min t_max rec = Sphere.fill_record s r root rec) := by
  intro a half_b c disc
  have key : s.hit sqrt r t_min t_max rec =
      if disc < 0 then (false, rec)
      else if Sphere.out_of_range ((-half_b - sqrt disc) / a) t_min t_max then
        if Sphere.out_of_range ((-half_b + sqrt disc) / a) t_min t_max then (false, rec)
        else Sphere.fill_record s r ((-half_b + sqrt disc) / a) rec
      else Sphere.fill_record s r ((-half_b - sqrt disc) / a) rec := rfl
  rw [key]
  split_ifs with h1 h2 h3
  · exact Or.inl rfl
  · exact Or.inl rfl
  · simp only [Bool.not_eq_true, Sphere.out_of_range_eq_false] at h3
    exact Or.inr ⟨not_lt.mp h1, _, Or.inr rfl, h3.1, h3.2, rfl⟩
  · simp only [Bool.not_eq_true, Sphere.out_of_range_eq_false] at h2
    exact Or.inr ⟨not_lt.mp h1, _, Or.inl rfl, h2.1, h2.2, rfl⟩

/-- C2: whenever `Sphere::hit` returns true, the reported point is `r.at(rec.t)` and lies
on the sphere: `|rec.p - C|^2 = r^2`. -/
theorem Sphere_hit_point_on_sphere (sqrt : F → F) (hs : IsSqrt sqrt) (s : Sphere F M)
    (r : Ray F) (hd : r.direction ≠ Vec3.mk 0 0 0) (t_min : F) (t_max : WithTop F)
    (rec : hit_record F M) (h : (s.hit sqrt r t_min t_max rec).1 = true) :
    (s.hit sqrt r t_min t_max rec).2.p = r.at_ (s.hit sqrt r t_min t_max rec).2.t ∧
      ((s.hit sqrt r t_min t_max rec).2.p - s.center).length_squared = s.radius * s.radius := by
  have ha : r.direction.length_squared ≠ 0 := ne_of_gt (length_squared_pos r.direction hd)
  rcases Sphere.hit_cases sqrt s r t_min t_max rec with hc | ⟨hdisc, root, hroot, -, -, hc⟩
  · rw [hc] at h
    exact absurd h (by simp)
  · rw [hc]
    refine ⟨rfl, ?_⟩
    have hq := Sphere.quadratic_root _ _ _ _ root ha (hs _ hdisc).2 hroot
    rw [Sphere.fill_record_p, Ray.at_length_squared]
    linear_combination hq

/-- Evaluation of `Sphere::hit` over the reals on the unit sphere and the ray from
`(0,0,-3)` along `(0,0,1)`: the roots are `2` and `4`, so with `2` in range the result
is a front-face hit at `t = 2`. -/
theorem unit_sphere_hit_z_ray (m : M) (t_min : ℝ) (t_max : WithTop ℝ) (rec : hit_record ℝ M)
    (h1 : t_min ≤ 2) (h2 : ((2 : ℝ) : WithTop ℝ) ≤ t_max) :
    (unit_sphere m).hit Real.sqrt (z_ray : Ray ℝ) t_min t_max rec =
      (true, hit_record.mk (Vec3.mk 0 0 (-1)) (Vec3.mk 0 0 (-1)) m 2 true) := by
  have ho : Sphere.out_of_range (2 : ℝ) t_min t_max = false :=
    (Sphere.out_of_range_eq_false _ _ _).mpr ⟨h1, h2⟩
  simp only [Sphere.hit, Sphere.fill_record, hit_record.set_face_normal,
    Ray.direction, Ray.origin, Ray.at_, Vec3.length_squared, dot, z_ray, unit_sphere,
    Vec3.sub_x, Vec3.sub_y, Vec3.sub_z]
  norm_num [ho]
  constructor <;> ext <;> norm_num

/-- Evaluation of `Sphere::hit` on the sphere touching the unit sphere: the roots are `0`
and `2`, so with `0` below the range and `2` in range the result is a back-face hit at
`t = 2`, at the same point `(0,0,-1)`. -/
theorem tangent_sphere_hit_z_ray (m : M) (t_min : ℝ) (t_max : WithTop ℝ)
    (rec : hit_record ℝ M) (h0 : 0 < t_min) (h1 : t_min ≤ 2)
    (h2 : ((2 : ℝ) : WithTop ℝ) ≤ t_max) :
    (tangent_sphere m).hit Real.sqrt (z_ray : Ray ℝ) t_min t_max rec =
      (true, hit_record.mk (Vec3.mk 0 0 (-1)) (Vec3.mk 0 0 (-1)) m 2 false) := by
  have ho0 : Sphere.out_of_range (0 : ℝ) t_min t_max = true :=
    (Sphere.out_of_range_eq_true _ _ _).mpr (fun h => absurd h.1 (not_le.mpr h0))
  have ho : Sphere.out_of_range (2 : ℝ) t_min t_max = false :=
    (Sphere.out_of_range_eq_false _ _ _).mpr ⟨h1, h2⟩
  simp only [Sphere.hit, Sphere.fill_record, hit_record.set_face_normal,
    Ray.direction, Ray.origin, Ray.at_, Vec3.length_squared, dot, z_ray, tangent_sphere,
    Vec3.sub_x, Vec3.sub_y, Vec3.sub_z]
  norm_num [ho, ho0]
  constructor <;> ext <;> norm_num

/-- Evaluation of `Sphere::hit` on a sphere the ray misses: the discriminant is `-24`. -/
theorem side_sphere_hit_z_ray (m : M) (t_min : ℝ) (t_max : WithTop ℝ)
    (rec : hit_record ℝ M) :
    (side_sphere m).hit Real.sqrt (z_ray : Ray ℝ) t_min t_max rec = (false, rec) := by
  simp only [Sphere.hit, Ray.direction, Ray.origin, Vec3.length_squared, dot, z_ray,
    side_sphere, Vec3.sub_x, Vec3.sub_y, Vec3.sub_z]
  norm_num

/-- The range `[0, 10]` contains `2`. -/
theorem two_le_ten : ((2 : ℝ) : WithTop ℝ) ≤ 10 := by
  show ((2 : ℝ) : WithTop ℝ) ≤ ((10 : ℝ) : WithTop ℝ)
  exact WithTop.coe_le_coe.mpr (by norm_num)

/-- The range `[0, 2]` contains `2`. -/
theorem two_le_two : ((2 : ℝ) : WithTop ℝ) ≤ 2 :=
  le_of_eq rfl

/-- C2 at a concrete input: the hit of `unit_sphere_hit_z_ray` is at `(0,0,-1)`, at
squared distance `1` from the centre. -/
theorem Sphere_hit_point_on_sphere_witness :
    IsSqrt Real.sqrt ∧ (z_ray : Ray ℝ).direction ≠ Vec3.mk 0 0 0 ∧
      ((unit_sphere (7 : ℕ)).hit Real.sqrt (z_ray : Ray ℝ) 0 10 (blank_record 0)).1 = true ∧
      (((unit_sphere (7 : ℕ)).hit Real.sqrt (z_ray : Ray ℝ) 0 10 (blank_record 0)).2.p -
        (unit_sphere (7 : ℕ) : Sphere ℝ ℕ).center).length_squared = 1 * 1 := by
  have hd : (z_ray : Ray ℝ).direction ≠ Vec3.mk 0 0 0 := by
    simp [Ray.direction, z_ray]
  have ht : ((unit_sphere (7 : ℕ)).hit Real.sqrt (z_ray : Ray ℝ) 0 10 (blank_record 0)).1 = true := by
    rw [unit_sphere_hit_z_ray 7 0 10 _ (by norm_num) two_le_ten]
  exact ⟨real_isSqrt, hd, ht,
    (Sphere_hit_point_on_sphere Real.sqrt real_isSqrt (unit_sphere (7 : ℕ)) z_ray hd 0 10
      (blank_record 0) ht).2⟩

/-! ## Face normal -/

theorem dot_comm (u v : Vec3 F) : dot u v = dot v u := by
  simp only [dot]
  ring

theorem dot_neg_left (u v : Vec3 F) : dot (-u) v = -dot u v := by
  simp only [dot, Vec3.neg_x, Vec3.neg_y, Vec3.neg_z]
  ring

/-- C3: after `set_face_normal(r, outward_normal)` the stored normal has a non-positive dot
product with the ray direction; `inward` is true exactly when
`dot(r.direction(), outward_normal) < 0`; and the stored normal is `outward_normal` when
`inward` is true and `-outward_normal` otherwise. -/
theorem set_face_normal_opposes_ray (rec : hit_record F M) (r : Ray F)
    (outward_normal : Vec3 F) :
    dot (rec.set_face_normal r outward_normal).normal r.direction ≤ 0 ∧
      ((rec.set_face_normal r outward_normal).inward = true ↔
        dot r.direction outward_normal < 0) ∧
      (rec.set_face_normal r outward_normal).normal =
        (if (rec.set_face_normal r outward_normal).inward = true then outward_normal
          else -outward_normal) := by
  by_cases h : dot r.direction outward_normal < 0
  · refine ⟨?_, ?_, ?_⟩
    · simp only [hit_record.set_face_normal, h, decide_True, if_true]
      rw [dot_comm]
      exact le_of_lt h
    · simp [hit_record.set_face_normal, h]
    · simp [hit_record.set_face_normal, h]
  · refine ⟨?_, ?_, ?_⟩
    · simp only [hit_record.set_face_normal, h, decide_False, Bool.false_eq_true, if_false]
      rw [dot_neg_left, dot_comm]
      linarith [not_lt.mp h]
    · simp [hit_record.set_face_normal, h]
    · simp [hit_record.set_face_normal, h]

/-! ## The scene loop -/

theorem Sphere.hit_eq (sqrt : F → F) (s : Sphere F M) (r : Ray F) (t_min : F)
    (t_max : WithTop F) (rec : hit_record F M) :
    s.hit sqrt r t_min t_max rec =
      match s.accepted_root sqrt r t_min t_max with
      | none => (false, rec)
      | some root => Sphere.fill_record s r root rec := by
  simp only [Sphere.hit, Sphere.accepted_root]
  split_ifs <;> rfl

/-- On success every field of the record is overwritten. -/
theorem Sphere.fill_record_indep (s : Sphere F M) (r : Ray F) (root : F)
    (rec1 rec2 : hit_record F M) :
    Sphere.fill_record s r root rec1 = Sphere.fill_record s r root rec2 := rfl

theorem length_squared_nonneg (v : Vec3 F) : 0 ≤ v.length_squared := by
  unfold Vec3.length_squared
  nlinarith [mul_self_nonneg v.x, mul_self_nonneg v.y, mul_self_nonneg v.z]

/-- An accepted root lies in the search range. -/
theorem Sphere.accepted_root_in_range (sqrt : F → F) (s : Sphere F M) (r : Ray F) (t_min : F)
    (t_max : WithTop F) (t : F) (h : s.accepted_root sqrt r t_min t_max = some t) :
    t_min ≤ t ∧ (t : WithTop F) ≤ t_max := by
  simp only [Sphere.accepted_root] at h
  split_ifs at h with h1 h2 h3
  · simp only [Bool.not_eq_true, Sphere.out_of_range_eq_false] at h3
    rw [← Option.some.inj h]
    exact h3
  · simp only [Bool.not_eq_true, Sphere.out_of_range_eq_false] at h2
    rw [← Option.some.inj h]
    exact h2

theorem Sphere.shrink_aux (R1 R2 t_min : F) (t_max t_c : WithTop F) (hR : R1 ≤ R2)
    (hle : t_c ≤ t_max) (t : F) :
    (if Sphere.out_of_range R1 t_min t_c = true then
        (if Sphere.out_of_range R2 t_min t_c = true then none else some R2)
      else some R1) = some t ↔
      (if Sphere.out_of_range R1 t_min t_max = true then
        (if Sphere.out_of_range R2 t_min t_max = true then none else some R2)
      else some R1) = some t ∧ (t : WithTop F) ≤ t_c := by
  have hR2 : (R1 : WithTop F) ≤ (R2 : WithTop F) := WithTop.coe_le_coe.mpr hR
  cases h1c : Sphere.out_of_range R1 t_min t_c
  · rw [Sphere.out_of_range_eq_false] at h1c
    have h1m : Sphere.out_of_range R1 t_min t_max = false :=
      (Sphere.out_of_range_eq_false _ _ _).mpr ⟨h1c.1, le_trans h1c.2 hle⟩
    simp only [h1m, Bool.false_eq_true, if_false, Option.some.injEq]
    exact ⟨fun h => ⟨h, h ▸ h1c.2⟩, fun h => h.1⟩
  · rw [Sphere.out_of_range_eq_true] at h1c
    cases h1m : Sphere.out_of_range R1 t_min t_max
    · rw [Sphere.out_of_range_eq_false] at h1m
      have h2c : Sphere.out_of_range R2 t_min t_c = true :=
        (Sphere.out_of_range_eq_true _ _ _).mpr
          (fun h => h1c ⟨h1m.1, le_trans hR2 h.2⟩)
      simp only [h2c, if_true, Bool.false_eq_true, if_false, Option.some.injEq]
      refine ⟨fun h => absurd h (by simp), fun h => absurd ?_ h1c⟩
      exact ⟨h1m.1, h.1 ▸ h.2⟩
    · cases h2c : Sphere.out_of_range R2 t_min t_c
      · rw [Sphere.out_of_range_eq_false] at h2c
        have h2m : Sphere.out_of_range R2 t_min t_max = false :=
          (Sphere.out_of_range_eq_false _ _ _).mpr ⟨h2c.1, le_trans h2c.2 hle⟩
        simp only [h2m, if_true, Bool.false_eq_true, if_false, Option.some.injEq]
        exact ⟨fun h => ⟨h, h ▸ h2c.2⟩, fun h => h.1⟩
      · rw [Sphere.out_of_range_eq_true] at h2c
        cases h2m : Sphere.out_of_range R2 t_min t_max
        · rw [Sphere.out_of_range_eq_false] at h2m
          simp only [if_true, Bool.false_eq_true, if_false, Option.some.injEq]
          refine ⟨fun h => absurd h (by simp), fun h => absurd ?_ h2c⟩
          exact ⟨h2m.1, h.1 ▸ h.2⟩
        · simp

/-- Searching the shorter range `[t_min, t_c]` accepts exactly the root accepted on
`[t_min, t_max]` when that root is at most `t_c`. -/
theorem Sphere.accepted_root_shrink (sqrt : F → F) (hs : IsSqrt sqrt) (s : Sphere F M)
    (r : Ray F) (t_min : F) (t_max t_c : WithTop F) (hle : t_c ≤ t_max) (t : F) :
    s.accepted_root sqrt r t_min t_c = some t ↔
      s.accepted_root sqrt r t_min t_max = some t ∧ (t : WithTop F) ≤ t_c := by
  simp only [Sphere.accepted_root]
  by_cases hdisc : dot r.direction (r.origin - s.center) * dot r.direction (r.origin - s.center) -
      r.direction.length_squared *
        ((r.origin - s.center).length_squared - s.radius * s.radius) < 0
  · simp [hdisc]
  · have hR := Sphere.root_le_root sqrt hs r.direction.length_squared
      (dot r.direction (r.origin - s.center)) _ (length_squared_nonneg _) (not_lt.mp hdisc)
    simp only [hdisc, if_false]
    exact Sphere.shrink_aux _ _ t_min t_max t_c hR hle t

theorem Sphere.hit_of_accepted (sqrt : F → F) (s : Sphere F M) (r : Ray F) (t_min : F)
    (t_max : WithTop F) (rec : hit_record F M) (t : F)
    (h : s.accepted_root sqrt r t_min t_max = some t) :
    s.hit sqrt r t_min t_max rec = Sphere.fill_record s r t rec := by
  rw [Sphere.hit_eq, h]

theorem Sphere.hit_of_not_accepted (sqrt : F → F) (s : Sphere F M) (r : Ray F) (t_min : F)
    (t_max : WithTop F) (rec : hit_record F M)
    (h : s.accepted_root sqrt r t_min t_max = none) :
    s.hit sqrt r t_min t_max rec = (false, rec) := by
  rw [Sphere.hit_eq, h]

/-- A member reports `h` exactly when it accepts a root and `h` is the record filled for
it; the old contents of the record play no part. -/
theorem Sphere.reports_iff (sqrt : F → F) (s : Sphere F M) (r : Ray F) (t_min : F)
    (t_max : WithTop F) (h rec : hit_record F M) :
    s.reports sqrt r t_min t_max h ↔
      ∃ t : F, s.accepted_root sqrt r t_min t_max = some t ∧
        Sphere.fill_record s r t rec = (true, h) := by
  constructor
  · rintro ⟨rec0, h0⟩
    cases hacc : s.accepted_root sqrt r t_min t_max with
    | none =>
      rw [Sphere.hit_of_not_accepted sqrt s r t_min t_max rec0 hacc] at h0
      exact absurd (congrArg Prod.fst h0) (by simp)
    | some t =>
      rw [Sphere.hit_of_accepted sqrt s r t_min t_max rec0 t hacc] at h0
      exact ⟨t, rfl, (Sphere.fill_record_indep s r t rec rec0).trans h0⟩
  · rintro ⟨t, hacc, hfill⟩
    exact ⟨rec, (Sphere.hit_of_accepted sqrt s r t_min t_max rec t hacc).trans hfill⟩

/-- In terms of the function itself: `s` reports `h` exactly when its `hit` on any record
returns true and leaves `h`. -/
theorem Sphere.reports_iff_hit (sqrt : F → F) (s : Sphere F M) (r : Ray F) (t_min : F)
    (t_max : WithTop F) (h rec : hit_record F M) :
    s.reports sqrt r t_min t_max h ↔
      (s.hit sqrt r t_min t_max rec).1 = true ∧ (s.hit sqrt r t_min t_max rec).2 = h := by
  rw [Sphere.reports_iff sqrt s r t_min t_max h rec]
  constructor
  · rintro ⟨t, hacc, hfill⟩
    rw [Sphere.hit_of_accepted sqrt s r t_min t_max rec t hacc, hfill]
    exact ⟨rfl, rfl⟩
  · rintro ⟨h1, h2⟩
    cases hacc : s.accepted_root sqrt r t_min t_max with
    | none =>
      rw [Sphere.hit_of_not_accepted sqrt s r t_min t_max rec hacc] at h1
      exact absurd h1 (by simp)
    | some t =>
      rw [Sphere.hit_of_accepted sqrt s r t_min t_max rec t hacc] at h2
      exact ⟨t, rfl, Prod.ext rfl h2⟩

/-- The parameter of a reported record is the accepted root. -/
theorem Sphere.reports_t (sqrt : F → F) (s : Sphere F M) (r : Ray F) (t_min : F)
    (t_max : WithTop F) (h : hit_record F M) (hrep : s.reports sqrt r t_min t_max h) :
    s.accepted_root sqrt r t_min t_max = some h.t := by
  obtain ⟨t, hacc, hfill⟩ := (Sphere.reports_iff sqrt s r t_min t_max h h).mp hrep
  have ht : h.t = t := by
    have h2 : (Sphere.fill_record s r t h).2.t = h.t := by rw [hfill]
    rw [← h2]
    rfl
  rw [ht]
  exact hacc

/-- The invariant bounds `t_closest` by `t_max`. -/
theorem HittableList.LoopInv.t_closest_le (sqrt : F → F) (r : Ray F) (t_min : F)
    (t_max : WithTop F) (rec : hit_record F M) (seen : List (Sphere F M)) (st : HitLoop F M)
    (hinv : HittableList.LoopInv sqrt r t_min t_max rec seen st) : st.t_closest ≤ t_max := by
  cases hh : st.hit_anything
  · rw [(hinv.1 hh).1]
  · rw [(hinv.2 hh).1]
    exact (hinv.2 hh).2.1

/-- An iteration that does not hit keeps everything but `temp_rec`. -/
theorem HittableList.hit_step_miss (sqrt : F → F) (r : Ray F) (t_min : F) (st : HitLoop F M)
    (m : Sphere F M) (hacc : m.accepted_root sqrt r t_min st.t_closest = none) :
    HittableList.hit_step sqrt r t_min st m = st := by
  simp only [HittableList.hit_step,
    Sphere.hit_of_not_accepted sqrt m r t_min st.t_closest st.temp_rec hacc]
  rfl

/-- An iteration that hits records the new closest hit. -/
theorem HittableList.hit_step_hit (sqrt : F → F) (r : Ray F) (t_min : F) (st : HitLoop F M)
    (m : Sphere F M) (t : F) (hacc : m.accepted_root sqrt r t_min st.t_closest = some t) :
    HittableList.hit_step sqrt r t_min st m =
      { hit_anything := true, t_closest := (t : WithTop F),
        temp_rec := (Sphere.fill_record m r t st.temp_rec).2,
        rec_ := (Sphere.fill_record m r t st.temp_rec).2 } := by
  simp only [HittableList.hit_step,
    Sphere.hit_of_accepted sqrt m r t_min st.t_closest st.temp_rec t hacc]
  rfl

/-- One iteration of the loop preserves the invariant. -/
theorem HittableList.hit_step_inv (sqrt : F → F) (hs : IsSqrt sqrt) (r : Ray F) (t_min : F)
    (t_max : WithTop F) (rec : hit_record F M) (seen : List (Sphere F M)) (st : HitLoop F M)
    (m : Sphere F M) (hinv : HittableList.LoopInv sqrt r t_min t_max rec seen st) :
    HittableList.LoopInv sqrt r t_min t_max rec (seen ++ [m])
      (HittableList.hit_step sqrt r t_min st m) := by
  have htc := HittableList.LoopInv.t_closest_le sqrt r t_min t_max rec seen st hinv
  have hshrink := Sphere.accepted_root_shrink sqrt hs m r t_min t_max st.t_closest htc
  cases hacc : m.accepted_root sqrt r t_min st.t_closest with
  | none =>
    rw [HittableList.hit_step_miss sqrt r t_min st m hacc]
    have hm : ∀ h : hit_record F M, m.reports sqrt r t_min t_max h →
        ¬ ((h.t : WithTop F) ≤ st.t_closest) := by
      intro h hrep hle
      have := (hshrink h.t).mpr ⟨Sphere.reports_t sqrt m r t_min t_max h hrep, hle⟩
      rw [hacc] at this
      exact absurd this (by simp)
    refine ⟨fun hh => ?_, fun hh => ?_⟩
    · obtain ⟨h1, h2, h3⟩ := hinv.1 hh
      refine ⟨h1, h2, ?_⟩
      intro m' hm' h hrep
      rcases List.mem_append.mp hm' with hm' | hm'
      · exact h3 m' hm' h hrep
      · rw [List.mem_singleton] at hm'
        subst hm'
        apply hm h hrep
        rw [h1]
        exact (Sphere.accepted_root_in_range sqrt m' r t_min t_max h.t
          (Sphere.reports_t sqrt m' r t_min t_max h hrep)).2
    · obtain ⟨h1, h2, ⟨m0, hm0, hrep0⟩, h4⟩ := hinv.2 hh
      refine ⟨h1, h2, ⟨m0, List.mem_append.mpr (Or.inl hm0), hrep0⟩, ?_⟩
      intro m' hm' h hrep
      rcases List.mem_append.mp hm' with hm' | hm'
      · exact h4 m' hm' h hrep
      · rw [List.mem_singleton] at hm'
        subst hm'
        have := hm h hrep
        rw [h1, WithTop.coe_le_coe] at this
        exact le_of_lt (not_le.mp this)
  | some t =>
    rw [HittableList.hit_step_hit sqrt r t_min st m t hacc]
    obtain ⟨hacc', hle⟩ := (hshrink t).mp hacc
    have hrep : m.reports sqrt r t_min t_max (Sphere.fill_record m r t st.temp_rec).2 :=
      (Sphere.reports_iff sqrt m r t_min t_max _ st.temp_rec).mpr ⟨t, hacc', rfl⟩
    refine ⟨fun hh => absurd hh (by simp), fun _ => ⟨rfl, ?_, ?_, ?_⟩⟩
    · exact (Sphere.accepted_root_in_range sqrt m r t_min t_max t hacc').2
    · exact ⟨m, List.mem_append.mpr (Or.inr (List.mem_singleton.mpr rfl)), hrep⟩
    · intro m' hm' h hrep'
      show t ≤ h.t
      rcases List.mem_append.mp hm' with hm' | hm'
      · cases hh : st.hit_anything
        · exact absurd hrep' ((hinv.1 hh).2.2 m' hm' h)
        · obtain ⟨h1, -, -, h4⟩ := hinv.2 hh
          rw [h1, WithTop.coe_le_coe] at hle
          exact le_trans hle (h4 m' hm' h hrep')
      · rw [List.mem_singleton] at hm'
        subst hm'
        have h1 := Sphere.reports_t sqrt m' r t_min t_max h hrep'
        rw [hacc'] at h1
        exact le_of_eq (Option.some.inj h1)

/-- The invariant holds when the loop of `HittableList::hit` ends. -/
theorem HittableList.hit_loop_inv (sqrt : F → F) (hs : IsSqrt sqrt) (r : Ray F) (t_min : F)
    (t_max : WithTop F) (temp_rec rec : hit_record F M) (l : List (Sphere F M)) :
    HittableList.LoopInv sqrt r t_min t_max rec l
      (l.foldl (HittableList.hit_step sqrt r t_min)
        { t_closest := t_max, hit_anything := false, temp_rec := temp_rec, rec_ := rec }) := by
  induction l using List.reverseRecOn with
  | nil =>
    refine ⟨fun _ => ⟨rfl, rfl, ?_⟩, fun hh => absurd hh (by simp)⟩
    intro m hm
    exact absurd hm (List.not_mem_nil m)
  | append_singleton l m ih =>
    rw [List.foldl_append, List.foldl_cons, List.foldl_nil]
    exact HittableList.hit_step_inv sqrt hs r t_min t_max rec l _ m ih

/-- The result of `HittableList::hit` read off the invariant: either no member reports a
hit, the result is false and `rec` is untouched, or the result is true and `rec` holds
the record of a member whose parameter is least among all members that are hit. -/
theorem HittableList.hit_spec (sqrt : F → F) (hs : IsSqrt sqrt) (l : HittableList F M)
    (r : Ray F) (t_min : F) (t_max : WithTop F) (temp_rec rec : hit_record F M) :
    ((∀ m ∈ l.objects, ∀ h : hit_record F M, ¬ m.reports sqrt r t_min t_max h) ∧
        l.hit sqrt r t_min t_max temp_rec rec = (false, rec)) ∨
      ((l.hit sqrt r t_min t_max temp_rec rec).1 = true ∧
        (∃ m ∈ l.objects, m.reports sqrt r t_min t_max (l.hit sqrt r t_min t_max temp_rec rec).2) ∧
        ∀ m ∈ l.objects, ∀ h : hit_record F M, m.reports sqrt r t_min t_max h →
          (l.hit sqrt r t_min t_max temp_rec rec).2.t ≤ h.t) := by
  have hinv := HittableList.hit_loop_inv sqrt hs r t_min t_max temp_rec rec l.objects
  cases hh : (l.objects.foldl (HittableList.hit_step sqrt r t_min)
      { t_closest := t_max, hit_anything := false, temp_rec := temp_rec,
        rec_ := rec }).hit_anything
  · obtain ⟨-, h2, h3⟩ := hinv.1 hh
    exact Or.inl ⟨h3, Prod.ext hh h2⟩
  · obtain ⟨-, -, h3, h4⟩ := hinv.2 hh
    exact Or.inr ⟨hh, h3, h4⟩

/-- C4: `HittableList::hit` returns true exactly when some member's own
`hit(r, t_min, t_max)` returns true; then `rec.t` is the parameter some member that is hit
reports on its own, and it is at most the parameter of every member that is hit; on the
empty list the result is false. -/
theorem HittableList_hit_closest (sqrt : F → F) (hs : IsSqrt sqrt) (l : HittableList F M)
    (r : Ray F) (t_min : F) (t_max : WithTop F) (temp_rec rec rec0 : hit_record F M) :
    ((l.hit sqrt r t_min t_max temp_rec rec).1 = true ↔
        ∃ m ∈ l.objects, (m.hit sqrt r t_min t_max rec0).1 = true) ∧
      ((l.hit sqrt r t_min t_max temp_rec rec).1 = true →
        (∃ m ∈ l.objects, (m.hit sqrt r t_min t_max rec0).1 = true ∧
          (l.hit sqrt r t_min t_max temp_rec rec).2.t = (m.hit sqrt r t_min t_max rec0).2.t) ∧
        ∀ m ∈ l.objects, (m.hit sqrt r t_min t_max rec0).1 = true →
          (l.hit sqrt r t_min t_max temp_rec rec).2.t ≤ (m.hit sqrt r t_min t_max rec0).2.t) ∧
      ((HittableList.mk ([] : List (Sphere F M))).hit sqrt r t_min t_max temp_rec rec).1
        = false := by
  refine ⟨?_, ?_, rfl⟩
  · rcases HittableList.hit_spec sqrt hs l r t_min t_max temp_rec rec with ⟨h1, h2⟩ | ⟨h1, h2, -⟩
    · rw [h2]
      refine ⟨fun h => absurd h (by simp), ?_⟩
      rintro ⟨m, hm, hhit⟩
      exact absurd ((Sphere.reports_iff_hit sqrt m r t_min t_max _ rec0).mpr ⟨hhit, rfl⟩)
        (h1 m hm _)
    · refine ⟨fun _ => ?_, fun _ => h1⟩
      obtain ⟨m, hm, hrep⟩ := h2
      exact ⟨m, hm, ((Sphere.reports_iff_hit sqrt m r t_min t_max _ rec0).mp hrep).1⟩
  · intro htrue
    rcases HittableList.hit_spec sqrt hs l r t_min t_max temp_rec rec with ⟨-, h2⟩ | ⟨-, h2, h3⟩
    · rw [h2] at htrue
      exact absurd htrue (by simp)
    · refine ⟨?_, ?_⟩
      · obtain ⟨m, hm, hrep⟩ := h2
        have := (Sphere.reports_iff_hit sqrt m r t_min t_max _ rec0).mp hrep
        exact ⟨m, hm, this.1, by rw [this.2]⟩
      · intro m hm hhit
        exact h3 m hm _ ((Sphere.reports_iff_hit sqrt m r t_min t_max _ rec0).mpr ⟨hhit, rfl⟩)

/-- C4 at a concrete input: the scene holding only the unit sphere is hit by the ray from
`(0,0,-3)` along `(0,0,1)`. -/
theorem HittableList_hit_closest_witness :
    IsSqrt Real.sqrt ∧
      ((HittableList.mk [unit_sphere (7 : ℕ)]).hit Real.sqrt (z_ray : Ray ℝ) 0 10
        (blank_record 0) (blank_record 0)).1 = true :=
  ⟨real_isSqrt,
    (HittableList_hit_closest Real.sqrt real_isSqrt (HittableList.mk [unit_sphere (7 : ℕ)])
      (z_ray : Ray ℝ) 0 10 (blank_record 0) (blank_record 0) (blank_record 0)).1.mpr
      ⟨unit_sphere 7, List.mem_singleton.mpr rfl,
        by rw [unit_sphere_hit_z_ray 7 0 10 _ (by norm_num) two_le_ten]⟩⟩

/-- C5: when the scene is hit at parameter `t0` and a sphere `S` on its own either is not
hit or reports a parameter strictly greater than `t0`, then after `add(S)` the scene's
`hit` on the same ray and range returns true with the same record. -/
theorem HittableList_add_farther (sqrt : F → F) (hs : IsSqrt sqrt) (l : HittableList F M)
    (r : Ray F) (t_min : F) (t_max : WithTop F) (temp_rec rec rec0 : hit_record F M)
    (S : Sphere F M) (hhit : (l.hit sqrt r t_min t_max temp_rec rec).1 = true)
    (hS : (S.hit sqrt r t_min t_max rec0).1 = false ∨
      ((S.hit sqrt r t_min t_max rec0).1 = true ∧
        (l.hit sqrt r t_min t_max temp_rec rec).2.t < (S.hit sqrt r t_min t_max rec0).2.t)) :
    ((l.add S).hit sqrt r t_min t_max temp_rec rec).1 = true ∧
      ((l.add S).hit sqrt r t_min t_max temp_rec rec).2 =
        (l.hit sqrt r t_min t_max temp_rec rec).2 := by
  have hinv := HittableList.hit_loop_inv sqrt hs r t_min t_max temp_rec rec l.objects
  have key : (l.add S).hit sqrt r t_min t_max temp_rec rec =
      l.hit sqrt r t_min t_max temp_rec rec := by
    simp only [HittableList.hit, HittableList.add, List.foldl_append, List.foldl_cons,
      List.foldl_nil]
    rw [HittableList.hit_step_miss]
    obtain ⟨h1, h2, -, -⟩ := hinv.2 hhit
    cases hacc : S.accepted_root sqrt r t_min _ with
    | none => rfl
    | some t =>
      exfalso
      rw [Sphere.accepted_root_shrink sqrt hs S r t_min t_max _
        (HittableList.LoopInv.t_closest_le sqrt r t_min t_max rec l.objects _ hinv) t, h1,
        WithTop.coe_le_coe] at hacc
      have hfill := Sphere.hit_of_accepted sqrt S r t_min t_max rec0 t hacc.1
      rw [hfill] at hS
      rcases hS with hS | ⟨-, hS⟩
      · exact absurd hS (by simp)
      · rw [Sphere.fill_record_t] at hS
        exact absurd hacc.2 (not_le.mpr hS)
  rw [key]
  exact ⟨hhit, rfl⟩

/-- C5 at a concrete input: the scene holding the unit sphere is hit at `t = 2`; adding a
sphere that the ray misses leaves the record as it was. -/
theorem HittableList_add_farther_witness :
    IsSqrt Real.sqrt ∧
      ((HittableList.mk [unit_sphere (7 : ℕ)]).hit Real.sqrt (z_ray : Ray ℝ) 0 10
        (blank_record 0) (blank_record 0)).1 = true ∧
      ((side_sphere (8 : ℕ)).hit Real.sqrt (z_ray : Ray ℝ) 0 10 (blank_record 0)).1 = false ∧
      (((HittableList.mk [unit_sphere (7 : ℕ)]).add (side_sphere 8)).hit Real.sqrt
        (z_ray : Ray ℝ) 0 10 (blank_record 0) (blank_record 0)).2 =
        ((HittableList.mk [unit_sphere (7 : ℕ)]).hit Real.sqrt (z_ray : Ray ℝ) 0 10
          (blank_record 0) (blank_record 0)).2 := by
  have hhit : ((HittableList.mk [unit_sphere (7 : ℕ)]).hit Real.sqrt (z_ray : Ray ℝ) 0 10
      (blank_record 0) (blank_record 0)).1 = true := by
    simp [HittableList.hit, HittableList.hit_step,
      unit_sphere_hit_z_ray 7 0 10 (blank_record 0) (by norm_num) two_le_ten]
  have hS : ((side_sphere (8 : ℕ)).hit Real.sqrt (z_ray : Ray ℝ) 0 10 (blank_record 0)).1
      = false := by
    rw [side_sphere_hit_z_ray]
  exact ⟨real_isSqrt, hhit, hS,
    (HittableList_add_farther Real.sqrt real_isSqrt (HittableList.mk [unit_sphere (7 : ℕ)])
      z_ray 0 10 (blank_record 0) (blank_record 0) (blank_record 0) (side_sphere 8) hhit
      (Or.inl hS)).2⟩

/-- The scene `[unit_sphere, tangent_sphere]` on the ray from `(0,0,-3)` along `(0,0,1)`,
range `[1, 10]`: both members are hit at `t = 2`, and the later one, a back-face hit,
is the one recorded. -/
theorem unit_then_tangent_hit :
    (HittableList.mk [unit_sphere (7 : ℕ), tangent_sphere 7]).hit Real.sqrt (z_ray : Ray ℝ) 1 10
        (blank_record 0) (blank_record 0) =
      (true, hit_record.mk (Vec3.mk 0 0 (-1)) (Vec3.mk 0 0 (-1)) 7 2 false) := by
  simp [HittableList.hit, HittableList.hit_step,
    unit_sphere_hit_z_ray 7 1 10 (blank_record 0) (by norm_num) two_le_ten,
    fun rec => tangent_sphere_hit_z_ray (7 : ℕ) 1 2 rec (by norm_num) (by norm_num) two_le_two]

/-- The same scene with its members in the other order: the front-face hit of the unit
sphere is the one recorded. -/
theorem tangent_then_unit_hit :
    (HittableList.mk [tangent_sphere (7 : ℕ), unit_sphere 7]).hit Real.sqrt (z_ray : Ray ℝ) 1 10
        (blank_record 0) (blank_record 0) =
      (true, hit_record.mk (Vec3.mk 0 0 (-1)) (Vec3.mk 0 0 (-1)) 7 2 true) := by
  simp [HittableList.hit, HittableList.hit_step,
    tangent_sphere_hit_z_ray 7 1 10 (blank_record 0) (by norm_num) (by norm_num) two_le_ten,
    fun rec => unit_sphere_hit_z_ray (7 : ℕ) 1 2 rec (by norm_num) two_le_two]

/-- C6 fails as stated. The unit sphere and the sphere touching it at `(0,0,-1)` are both
hit at `t = 2` by the ray from `(0,0,-3)` along `(0,0,1)` on the range `[1, 10]`. Listed as
`[unit_sphere, tangent_sphere]` the scene records the back-face hit (`inward = false`);
listed in the other order it records the front-face hit (`inward = true`). -/
theorem HittableList_hit_order_counterexample :
    List.Perm [(unit_sphere (7 : ℕ) : Sphere ℝ ℕ), tangent_sphere 7]
        [tangent_sphere 7, unit_sphere 7] ∧
      ((HittableList.mk [unit_sphere (7 : ℕ), tangent_sphere 7]).hit Real.sqrt (z_ray : Ray ℝ)
        1 10 (blank_record 0) (blank_record 0)).2.inward = false ∧
      ((HittableList.mk [tangent_sphere (7 : ℕ), unit_sphere 7]).hit Real.sqrt (z_ray : Ray ℝ)
        1 10 (blank_record 0) (blank_record 0)).2.inward = true ∧
      (HittableList.mk [unit_sphere (7 : ℕ), tangent_sphere 7]).hit Real.sqrt (z_ray : Ray ℝ)
        1 10 (blank_record 0) (blank_record 0) ≠
      (HittableList.mk [tangent_sphere (7 : ℕ), unit_sphere 7]).hit Real.sqrt (z_ray : Ray ℝ)
        1 10 (blank_record 0) (blank_record 0) := by
  refine ⟨List.Perm.swap _ _ _, ?_, ?_, ?_⟩
  · rw [unit_then_tangent_hit]
  · rw [tangent_then_unit_hit]
  · rw [unit_then_tangent_hit, tangent_then_unit_hit]
    simp

/-- A reported point is the ray evaluated at the reported parameter. -/
theorem Sphere.reports_p (sqrt : F → F) (s : Sphere F M) (r : Ray F) (t_min : F)
    (t_max : WithTop F) (h : hit_record F M) (hrep : s.reports sqrt r t_min t_max h) :
    h.p = r.at_ h.t := by
  obtain ⟨t, -, hfill⟩ := (Sphere.reports_iff sqrt s r t_min t_max h h).mp hrep
  have h2 : (Sphere.fill_record s r t h).2 = h := by rw [hfill]
  rw [← h2]
  rfl

/-- One sphere reports at most one record. -/
theorem Sphere.reports_unique (sqrt : F → F) (s : Sphere F M) (r : Ray F) (t_min : F)
    (t_max : WithTop F) (h1 h2 : hit_record F M) (hrep1 : s.reports sqrt r t_min t_max h1)
    (hrep2 : s.reports sqrt r t_min t_max h2) : h1 = h2 := by
  rw [← ((Sphere.reports_iff_hit sqrt s r t_min t_max h1 h1).mp hrep1).2,
    ← ((Sphere.reports_iff_hit sqrt s r t_min t_max h2 h1).mp hrep2).2]

/-- C6 as amended: for a permutation of the list of spheres, `HittableList::hit` returns the
same boolean, the same parameter `t` and the same point; it returns the same whole record
(normal, front-face flag and material too) provided that any two members that are hit
at the same parameter on their own leave the same record, in particular when no two
members tie. -/
theorem HittableList_hit_perm (sqrt : F → F) (hs : IsSqrt sqrt) (l1 l2 : HittableList F M)
    (hp : l1.objects.Perm l2.objects) (r : Ray F) (t_min : F) (t_max : WithTop F)
    (temp_rec1 temp_rec2 rec : hit_record F M) :
    (l1.hit sqrt r t_min t_max temp_rec1 rec).1 = (l2.hit sqrt r t_min t_max temp_rec2 rec).1 ∧
      (l1.hit sqrt r t_min t_max temp_rec1 rec).2.t =
        (l2.hit sqrt r t_min t_max temp_rec2 rec).2.t ∧
      (l1.hit sqrt r t_min t_max temp_rec1 rec).2.p =
        (l2.hit sqrt r t_min t_max temp_rec2 rec).2.p ∧
      ((∀ m1 ∈ l1.objects, ∀ m2 ∈ l1.objects,
          (m1.hit sqrt r t_min t_max rec).1 = true → (m2.hit sqrt r t_min t_max rec).1 = true →
            (m1.hit sqrt r t_min t_max rec).2.t = (m2.hit sqrt r t_min t_max rec).2.t →
            (m1.hit sqrt r t_min t_max rec).2 = (m2.hit sqrt r t_min t_max rec).2) →
        l1.hit sqrt r t_min t_max temp_rec1 rec = l2.hit sqrt r t_min t_max temp_rec2 rec) := by
  rcases HittableList.hit_spec sqrt hs l1 r t_min t_max temp_rec1 rec with
    ⟨hn1, he1⟩ | ⟨ht1, ⟨m1, hm1, hrep1⟩, hmin1⟩
  · rcases HittableList.hit_spec sqrt hs l2 r t_min t_max temp_rec2 rec with
      ⟨-, he2⟩ | ⟨-, ⟨m2, hm2, hrep2⟩, -⟩
    · rw [he1, he2]
      exact ⟨rfl, rfl, rfl, fun _ => rfl⟩
    · exact absurd hrep2 (hn1 m2 (hp.mem_iff.mpr hm2) _)
  · rcases HittableList.hit_spec sqrt hs l2 r t_min t_max temp_rec2 rec with
      ⟨hn2, -⟩ | ⟨ht2, ⟨m2, hm2, hrep2⟩, hmin2⟩
    · exact absurd hrep1 (hn2 m1 (hp.mem_iff.mp hm1) _)
    · have ht : (l1.hit sqrt r t_min t_max temp_rec1 rec).2.t =
          (l2.hit sqrt r t_min t_max temp_rec2 rec).2.t :=
        le_antisymm (hmin1 m2 (hp.mem_iff.mpr hm2) _ hrep2)
          (hmin2 m1 (hp.mem_iff.mp hm1) _ hrep1)
      refine ⟨ht1.trans ht2.symm, ht, ?_, fun htie => ?_⟩
      · rw [Sphere.reports_p sqrt m1 r t_min t_max _ hrep1,
          Sphere.reports_p sqrt m2 r t_min t_max _ hrep2, ht]
      · obtain ⟨a1, a2⟩ := (Sphere.reports_iff_hit sqrt m1 r t_min t_max _ rec).mp hrep1
        obtain ⟨b1, b2⟩ := (Sphere.reports_iff_hit sqrt m2 r t_min t_max _ rec).mp hrep2
        have hrec := htie m1 hm1 m2 (hp.mem_iff.mpr hm2) a1 b1 (by rw [a2, b2, ht])
        rw [a2, b2] at hrec
        exact Prod.ext (ht1.trans ht2.symm) hrec

/-- The amended C6 at a concrete input: the unit sphere and a sphere the ray misses, in
either order, give the same result. -/
theorem HittableList_hit_perm_witness :
    IsSqrt Real.sqrt ∧
      List.Perm [(unit_sphere (7 : ℕ) : Sphere ℝ ℕ), side_sphere 8]
        [side_sphere 8, unit_sphere 7] ∧
      (HittableList.mk [unit_sphere (7 : ℕ), side_sphere 8]).hit Real.sqrt (z_ray : Ray ℝ)
        0 10 (blank_record 0) (blank_record 0) =
      (HittableList.mk [side_sphere (8 : ℕ), unit_sphere 7]).hit Real.sqrt (z_ray : Ray ℝ)
        0 10 (blank_record 0) (blank_record 0) := by
  refine ⟨real_isSqrt, List.Perm.swap _ _ _, ?_⟩
  refine (HittableList_hit_perm Real.sqrt real_isSqrt
    (HittableList.mk [unit_sphere (7 : ℕ), side_sphere 8])
    (HittableList.mk [side_sphere (8 : ℕ), unit_sphere 7]) (List.Perm.swap _ _ _)
    z_ray 0 10 (blank_record 0) (blank_record 0) (blank_record 0)).2.2.2 ?_
  intro m1 hm1 m2 hm2 h1 h2 _
  simp only [List.mem_cons, List.mem_singleton, List.not_mem_nil, or_false] at hm1 hm2
  rcases hm1 with rfl | rfl
  · rcases hm2 with rfl | rfl
    · rfl
    · rw [side_sphere_hit_z_ray] at h2
      exact absurd h2 (by simp)
  · rw [side_sphere_hit_z_ray] at h1
    exact absurd h1 (by simp)

/-! ## Materials -/

theorem Vec3.near_zero_iff (v : Vec3 F) :
    v.near_zero = true ↔
      |v.x| < 1 / 100000000 ∧ |v.y| < 1 / 100000000 ∧ |v.z| < 1 / 100000000 := by
  simp [Vec3.near_zero, and_assoc]

/-- C7: `Lambertian::scatter` returns true for every incoming ray, hit record and random
unit vector `q`, with attenuation equal to the albedo and a scattered ray from `rec.p`
whose direction is `rec.normal + q`, except that the direction is `rec.normal` when every
component of `rec.normal + q` is below `1e-8` in absolute value. -/
theorem Lambertian_scatter_never_absorbs (m : Lambertian F) (incoming : Ray F)
    (rec : hit_record F M) (q : Vec3 F) :
    (m.scatter incoming rec q).1 = true ∧
      (m.scatter incoming rec q).2.1 = m.albedo ∧
      (m.scatter incoming rec q).2.2.origin = rec.p ∧
      ((|(rec.normal + q).x| < 1 / 100000000 ∧ |(rec.normal + q).y| < 1 / 100000000 ∧
          |(rec.normal + q).z| < 1 / 100000000) →
        (m.scatter incoming rec q).2.2.direction = rec.normal) ∧
      (¬ (|(rec.normal + q).x| < 1 / 100000000 ∧ |(rec.normal + q).y| < 1 / 100000000 ∧
          |(rec.normal + q).z| < 1 / 100000000) →
        (m.scatter incoming rec q).2.2.direction = rec.normal + q) := by
  refine ⟨rfl, rfl, rfl, fun h => ?_, fun h => ?_⟩
  · have hz := (Vec3.near_zero_iff (rec.normal + q)).mpr h
    simp only [Lambertian.scatter, Ray.direction, hz, if_true]
  · have hz : ¬ ((rec.normal + q).near_zero = true) :=
      fun hz => h ((Vec3.near_zero_iff (rec.normal + q)).mp hz)
    simp only [Lambertian.scatter, Ray.direction, hz, Bool.false_eq_true, if_false]

/-- What `reflect` computes, component by component: `v - 2 (v.n) n`. -/
theorem reflect_components (v n : Vec3 F) :
    reflect v n =
      Vec3.mk (v.x - 2 * (v.x * n.x + v.y * n.y + v.z * n.z) * n.x)
        (v.y - 2 * (v.x * n.x + v.y * n.y + v.z * n.z) * n.y)
        (v.z - 2 * (v.x * n.x + v.y * n.y + v.z * n.z) * n.z) := by
  ext <;> simp only [reflect, dot, Vec3.add_x, Vec3.add_y, Vec3.add_z, Vec3.smul_x,
    Vec3.smul_y, Vec3.smul_z] <;> ring

/-- What `unit_vector` computes, component by component: `v` divided by its length. -/
theorem unit_vector_components (sqrt : F → F) (v : Vec3 F) :
    unit_vector sqrt v =
      Vec3.mk (v.x / sqrt (v.x * v.x + v.y * v.y + v.z * v.z))
        (v.y / sqrt (v.x * v.x + v.y * v.y + v.z * v.z))
        (v.z / sqrt (v.x * v.x + v.y * v.y + v.z * v.z)) := by
  ext <;> simp only [unit_vector, Vec3.length, Vec3.length_squared, Vec3.div_x, Vec3.div_y,
    Vec3.div_z] <;> ring

/-- The law of reflection about a unit normal: the normal component changes sign, the
tangential component and the length are kept. -/
theorem reflect_mirror (v n : Vec3 F) (hn : n.length_squared = 1) :
    dot (reflect v n) n = -dot v n ∧
      reflect v n - dot (reflect v n) n * n = v - dot v n * n ∧
      (reflect v n).length_squared = v.length_squared := by
  have hn1 : n.x * n.x + n.y * n.y + n.z * n.z = 1 := hn
  have h1 : dot (reflect v n) n = -dot v n := by
    rw [reflect_components]
    simp only [dot]
    linear_combination (-2 * (v.x * n.x + v.y * n.y + v.z * n.z)) * hn1
  refine ⟨h1, ?_, ?_⟩
  · rw [h1, reflect_components]
    ext <;> simp only [dot, Vec3.sub_x, Vec3.sub_y, Vec3.sub_z, Vec3.smul_x, Vec3.smul_y,
      Vec3.smul_z] <;> ring
  · rw [reflect_components]
    simp only [Vec3.length_squared]
    linear_combination
      (4 * (v.x * n.x + v.y * n.y + v.z * n.z) * (v.x * n.x + v.y * n.y + v.z * n.z)) * hn1

/-- C8: with `u = unit(d)` (the direction divided by its length) and
`refl = u - 2 (u.n) n` its mirror image about the normal `n`, which is what
`reflect(unit(d), n)` computes, `Metal::scatter` returns false exactly when
`dot(refl + fuzz*q, n) <= 0`; in every case the attenuation is the albedo and the scattered
ray runs from `rec.p` along `refl + fuzz*q`. For a unit normal `refl` has the normal
component of `u` negated and the tangential component and length of `u`. -/
theorem Metal_scatter_absorbs_iff (sqrt : F → F) (m : Metal F) (incoming : Ray F)
    (rec : hit_record F M) (q : Vec3 F) :
    let d : Vec3 F := incoming.direction
    let n : Vec3 F := rec.normal
    let len : F := sqrt (d.x * d.x + d.y * d.y + d.z * d.z)
    let u : Vec3 F := Vec3.mk (d.x / len) (d.y / len) (d.z / len)
    let c : F := u.x * n.x + u.y * n.y + u.z * n.z
    let refl : Vec3 F := Vec3.mk (u.x - 2 * c * n.x) (u.y - 2 * c * n.y) (u.z - 2 * c * n.z)
    let dir : Vec3 F :=
      Vec3.mk (refl.x + m.fuzz * q.x) (refl.y + m.fuzz * q.y) (refl.z + m.fuzz * q.z)
    (unit_vector sqrt d = u ∧ reflect (unit_vector sqrt d) n = refl ∧
        reflect (unit_vector sqrt d) n + m.fuzz * q = dir) ∧
      ((m.scatter sqrt incoming rec q).1 = false ↔
        dir.x * n.x + dir.y * n.y + dir.z * n.z ≤ 0) ∧
      ((m.scatter sqrt incoming rec q).1 = false ↔
        dot (reflect (unit_vector sqrt d) n + m.fuzz * q) n ≤ 0) ∧
      (m.scatter sqrt incoming rec q).2.1 = m.albedo ∧
      (m.scatter sqrt incoming rec q).2.2 = Ray.mk rec.p dir ∧
      (n.length_squared = 1 →
        dot refl n = -dot u n ∧ refl - dot refl n * n = u - dot u n * n ∧
          refl.length_squared = u.length_squared) := by
  intro d n len u c refl dir
  have hu : unit_vector sqrt d = u := by
    ext <;> simp only [unit_vector, Vec3.length, Vec3.length_squared, Vec3.div_x, Vec3.div_y,
      Vec3.div_z, u, len] <;> ring
  have hrefl : reflect (unit_vector sqrt d) n = refl := by
    rw [hu]
    ext <;> simp only [reflect, dot, Vec3.add_x, Vec3.add_y, Vec3.add_z, Vec3.smul_x,
      Vec3.smul_y, Vec3.smul_z, c, refl] <;> ring
  have hdir : reflect (unit_vector sqrt d) n + m.fuzz * q = dir := by
    rw [hrefl]
    rfl
  have hiff : (m.scatter sqrt incoming rec q).1 = false ↔
      dot (reflect (unit_vector sqrt d) n + m.fuzz * q) n ≤ 0 := by
    simp only [Metal.scatter, Ray.direction, gt_iff_lt, decide_eq_false_iff_not, not_lt, d, n]
  refine ⟨⟨hu, hrefl, hdir⟩, ?_, hiff, rfl, ?_, ?_⟩
  · rw [hiff, hdir]
    rfl
  · show Ray.mk rec.p (reflect (unit_vector sqrt incoming.direction) rec.normal + m.fuzz * q) =
      Ray.mk rec.p dir
    rw [show reflect (unit_vector sqrt incoming.direction) rec.normal + m.fuzz * q = dir
      from hdir]
  · intro hn
    rw [← hrefl, hu]
    exact reflect_mirror u n hn

/-- C9: `Dielectric::scatter` returns true for every refraction index, incoming ray, hit
record and random draw, sets the attenuation to `(1,1,1)`, and the scattered ray starts
at `rec.p`. -/
theorem Dielectric_scatter_never_absorbs (sqrt : F → F) (m : Dielectric F) (incoming : Ray F)
    (rec : hit_record F M) (x : F) :
    (m.scatter sqrt incoming rec x).1 = true ∧
      (m.scatter sqrt incoming rec x).2.1 = Vec3.mk 1 1 1 ∧
      (m.scatter sqrt incoming rec x).2.2.origin = rec.p :=
  ⟨rfl, rfl, rfl⟩

/-- C10: with `v = unit(d)`, `eta = 1/k` on a front face and `k` otherwise,
`cos = min(dot(-v, n), 1)` and `sin = sqrt(1 - cos^2)`, the direction scattered by
`Dielectric::scatter` is the mirror image `v - 2 (v.n) n`, which is what `reflect(v, n)`
computes, when `eta*sin > 1` or `r0 + (1-r0)*(1-cos)^5 > x` for
`r0 = ((1-eta)/(1+eta))^2`, and otherwise `refract(v, n, eta)`, which is
`eta*(v + cos*n) - sqrt|1 - |eta*(v + cos*n)|^2| n`. For a unit normal the mirror image has
the normal component of `v` negated and the tangential component and length of `v`. -/
theorem Dielectric_scatter_direction (sqrt : F → F) (m : Dielectric F) (incoming : Ray F)
    (rec : hit_record F M) (x : F) :
    let v : Vec3 F := unit_vector sqrt incoming.direction
    let n : Vec3 F := rec.normal
    let eta : F := if rec.inward = true then 1 / m.refraction_index else m.refraction_index
    let cos : F := min (dot (-v) n) 1
    let sin : F := sqrt (1 - cos ^ 2)
    let r0 : F := ((1 - eta) / (1 + eta)) ^ 2
    let c : F := v.x * n.x + v.y * n.y + v.z * n.z
    let mirror : Vec3 F := Vec3.mk (v.x - 2 * c * n.x) (v.y - 2 * c * n.y) (v.z - 2 * c * n.z)
    ((eta * sin > 1 ∨ r0 + (1 - r0) * (1 - cos) ^ 5 > x) →
        (m.scatter sqrt incoming rec x).2.2.direction = mirror) ∧
      (¬ (eta * sin > 1 ∨ r0 + (1 - r0) * (1 - cos) ^ 5 > x) →
        (m.scatter sqrt incoming rec x).2.2.direction = refract sqrt v n eta) ∧
      reflect v n = mirror ∧
      refract sqrt v n eta =
        eta * (v + cos * n) + (-(sqrt |1 - (eta * (v + cos * n)).length_squared|)) * n ∧
      (n.length_squared = 1 →
        dot mirror n = -dot v n ∧ mirror - dot mirror n * n = v - dot v n * n ∧
          mirror.length_squared = v.length_squared) := by
  intro v n eta cos sin r0 c mirror
  have hmirror : reflect v n = mirror := by
    ext <;> simp only [reflect, dot, Vec3.add_x, Vec3.add_y, Vec3.add_z, Vec3.smul_x,
      Vec3.smul_y, Vec3.smul_z, c, mirror] <;> ring
  have hsin : sqrt (1 - cos * cos) = sin := by
    show sqrt (1 - cos * cos) = sqrt (1 - cos ^ 2)
    rw [pow_two]
  have hr : Dielectric.reflectance cos eta = r0 + (1 - r0) * (1 - cos) ^ 5 := by
    simp only [Dielectric.reflectance, r0, pow_two]
  have key : (m.scatter sqrt incoming rec x).2.2.direction =
      if (decide (eta * sqrt (1 - cos * cos) > 1) ||
          decide (Dielectric.reflectance cos eta > x)) = true then
        reflect v n
      else refract sqrt v n eta := rfl
  rw [key, hsin, hr, hmirror]
  refine ⟨?_, ?_, rfl, rfl, ?_⟩
  · intro h
    rw [if_pos]
    simpa using h
  · intro h
    rw [if_neg]
    simpa using h
  · intro hn
    rw [← hmirror]
    exact reflect_mirror v n hn

/-! ## The integrator -/

theorem ray_color_of_nonpos (sqrt : F → F) (rnd : ℤ → Draw F)
    (uninit : hit_record F (Material F)) (r : Ray F) (scene : HittableList F (Material F))
    (depth : ℤ) (hdepth : depth ≤ 0) :
    ray_color sqrt rnd uninit r scene depth = Vec3.mk 0 0 0 := by
  rw [ray_color, dif_pos hdepth]

/-- One unfolding of `ray_color` for a positive recursion budget. -/
theorem ray_color_of_pos (sqrt : F → F) (rnd : ℤ → Draw F)
    (uninit : hit_record F (Material F)) (r : Ray F) (scene : HittableList F (Material F))
    (depth : ℤ) (hdepth : 0 < depth) :
    ray_color sqrt rnd uninit r scene depth =
      if (scene.hit sqrt r (1 / 1000) ⊤ uninit uninit).1 = true then
        if ((scene.hit sqrt r (1 / 1000) ⊤ uninit uninit).2.mat_ptr.scatter sqrt r
            (scene.hit sqrt r (1 / 1000) ⊤ uninit uninit).2 (rnd depth)).1 = true then
          ((scene.hit sqrt r (1 / 1000) ⊤ uninit uninit).2.mat_ptr.scatter sqrt r
            (scene.hit sqrt r (1 / 1000) ⊤ uninit uninit).2 (rnd depth)).2.1 *
            ray_color sqrt rnd uninit
              ((scene.hit sqrt r (1 / 1000) ⊤ uninit uninit).2.mat_ptr.scatter sqrt r
                (scene.hit sqrt r (1 / 1000) ⊤ uninit uninit).2 (rnd depth)).2.2 scene
              (depth - 1)
        else Vec3.mk 0 0 0
      else
        (1 - 1 / 2 * ((unit_vector sqrt r.direction).y + 1)) * (Vec3.mk 1 1 1 : Vec3 F) +
          (1 / 2 * ((unit_vector sqrt r.direction).y + 1)) *
            (Vec3.mk (1 / 2) (7 / 10) 1 : Vec3 F) := by
  rw [ray_color, dif_neg (not_le.mpr hdepth)]

theorem Vec3.zero_add_zero : (Vec3.mk 0 0 0 : Vec3 F) + Vec3.mk 0 0 0 = Vec3.mk 0 0 0 := by
  ext <;> simp

/-- Adding black any number of times to black leaves black. -/
theorem foldl_add_black (f : ℕ → Vec3 F) (hf : ∀ k, f k = Vec3.mk 0 0 0) (l : List ℕ) :
    l.foldl (fun (acc : Vec3 F) (k : ℕ) => acc + f k) (Vec3.mk 0 0 0) = Vec3.mk 0 0 0 := by
  induction l with
  | nil => rfl
  | cons k l ih =>
    rw [List.foldl_cons, hf k, Vec3.zero_add_zero]
    exact ih

/-- C11: for every integer `depth ≤ 0`, every ray and every scene `ray_color` is
`(0,0,0)`; hence with `max_depth = 0` the sample loop accumulates `(0,0,0)` for every
pixel and every sample count. -/
theorem ray_color_black_without_budget (sqrt : F → F) (rnd : ℤ → Draw F)
    (uninit : hit_record F (Material F)) (r : Ray F) (scene : HittableList F (Material F))
    (depth : ℤ) (hdepth : depth ≤ 0) (cam : Camera F)
    (image_width image_height samples_per_pixel i j : ℤ) (smp : ℕ → SampleDraws F) :
    ray_color sqrt rnd uninit r scene depth = Vec3.mk 0 0 0 ∧
      pixel_color sqrt cam scene uninit image_width image_height samples_per_pixel 0 i j smp =
        Vec3.mk 0 0 0 := by
  refine ⟨ray_color_of_nonpos sqrt rnd uninit r scene depth hdepth, ?_⟩
  unfold pixel_color
  exact foldl_add_black _ (fun k => ray_color_of_nonpos sqrt _ uninit _ scene 0 le_rfl) _

/-- C11 at a concrete input: budget `-1` on the grey scene, and a pixel of a render with
`max_depth = 0` and 4 samples. -/
theorem ray_color_black_without_budget_witness :
    (-1 : ℤ) ≤ 0 ∧
      ray_color Real.sqrt zero_draw (blank_record gray) (z_ray : Ray ℝ) gray_scene (-1) =
        Vec3.mk 0 0 0 ∧
      pixel_color Real.sqrt (example_camera Real.sqrt Real.tan 0) gray_scene
        (blank_record gray) 16 9 4 0 3 5 zero_samples = Vec3.mk 0 0 0 :=
  ⟨by decide,
    ray_color_black_without_budget Real.sqrt zero_draw (blank_record gray) (z_ray : Ray ℝ)
      gray_scene (-1) (by decide) (example_camera Real.sqrt Real.tan 0) 16 9 4 3 5
      zero_samples⟩

/-- C12: for `depth > 0`, `ray_color` is the sky gradient
`(1-t)*(1,1,1) + t*(0.5,0.7,1.0)` with `t = 0.5*(unit(r.direction()).y + 1)` when
`scene.hit(r, 0.001, infinity)` finds nothing, `(0,0,0)` when the material of the hit
does not scatter, and `attenuation * ray_color(scattered, scene, depth-1)` otherwise. -/
theorem ray_color_recursion (sqrt : F → F) (rnd : ℤ → Draw F)
    (uninit : hit_record F (Material F)) (r : Ray F) (scene : HittableList F (Material F))
    (depth : ℤ) (hdepth : 0 < depth) :
    let res : Bool × hit_record F (Material F) := scene.hit sqrt r (1 / 1000) ⊤ uninit uninit
    let sc : Bool × Vec3 F × Ray F := res.2.mat_ptr.scatter sqrt r res.2 (rnd depth)
    let t : F := 1 / 2 * ((unit_vector sqrt r.direction).y + 1)
    (res.1 = false →
        ray_color sqrt rnd uninit r scene depth =
          (1 - t) * (Vec3.mk 1 1 1 : Vec3 F) + t * (Vec3.mk (1 / 2) (7 / 10) 1 : Vec3 F)) ∧
      (res.1 = true → sc.1 = false →
        ray_color sqrt rnd uninit r scene depth = Vec3.mk 0 0 0) ∧
      (res.1 = true → sc.1 = true →
        ray_color sqrt rnd uninit r scene depth =
          sc.2.1 * ray_color sqrt rnd uninit sc.2.2 scene (depth - 1)) := by
  intro res sc t
  have key := ray_color_of_pos sqrt rnd uninit r scene depth hdepth
  refine ⟨fun h => ?_, fun h1 h2 => ?_, fun h1 h2 => ?_⟩
  · rw [key, if_neg]
    rw [show (scene.hit sqrt r (1 / 1000) ⊤ uninit uninit).1 = false from h]
    simp
  · rw [key, if_pos h1, if_neg]
    rw [show ((scene.hit sqrt r (1 / 1000) ⊤ uninit uninit).2.mat_ptr.scatter sqrt r
      (scene.hit sqrt r (1 / 1000) ⊤ uninit uninit).2 (rnd depth)).1 = false from h2]
    simp
  · rw [key, if_pos h1, if_pos h2]

/-- C12 at a concrete input: with an empty scene and budget 1 the colour of the ray along
`(0,0,1)` is the sky gradient at `t = 1/2`. -/
theorem ray_color_recursion_witness :
    (0 : ℤ) < 1 ∧
      ray_color Real.sqrt zero_draw (blank_record gray) (z_ray : Ray ℝ) (HittableList.mk []) 1 =
        (1 - 1 / 2 * ((unit_vector Real.sqrt (z_ray : Ray ℝ).direction).y + 1)) *
            (Vec3.mk 1 1 1 : Vec3 ℝ) +
          (1 / 2 * ((unit_vector Real.sqrt (z_ray : Ray ℝ).direction).y + 1)) *
            (Vec3.mk (1 / 2) (7 / 10) 1 : Vec3 ℝ) :=
  ⟨by decide,
    (ray_color_recursion Real.sqrt zero_draw (blank_record gray) (z_ray : Ray ℝ)
      (HittableList.mk []) 1 (by decide)).1 rfl⟩

/-! ## Rays -/

/-- C19: `Ray::at` evaluates `origin + t*direction`; in particular `at(0)` is the
origin. -/
theorem Ray_at_parametrisation (r : Ray F) (t : F) :
    r.at_ t = r.origin + t * r.direction ∧ r.at_ 0 = r.origin := by
  refine ⟨rfl, ?_⟩
  ext <;> simp [Ray.at_, Ray.origin]

/-! ## Vector algebra used by the camera -/

theorem dot_smul_left (a : F) (u v : Vec3 F) : dot (a * u) v = a * dot u v := by
  simp only [dot, Vec3.smul_x, Vec3.smul_y, Vec3.smul_z]
  ring

theorem dot_smul_right (a : F) (u v : Vec3 F) : dot u (a * v) = a * dot u v := by
  simp only [dot, Vec3.smul_x, Vec3.smul_y, Vec3.smul_z]
  ring

theorem dot_cross_left (a b : Vec3 F) : dot (cross a b) a = 0 := by
  simp only [dot, cross]
  ring

theorem dot_cross_right (a b : Vec3 F) : dot (cross a b) b = 0 := by
  simp only [dot, cross]
  ring

theorem length_squared_eq_dot (v : Vec3 F) : v.length_squared = dot v v := rfl

theorem length_squared_smul (a : F) (v : Vec3 F) :
    (a * v).length_squared = a * a * v.length_squared := by
  simp only [Vec3.length_squared, Vec3.smul_x, Vec3.smul_y, Vec3.smul_z]
  ring

/-- Lagrange's identity. -/
theorem length_squared_cross (a b : Vec3 F) :
    (cross a b).length_squared = a.length_squared * b.length_squared - dot a b * dot a b := by
  simp only [Vec3.length_squared, dot, cross]
  ring

theorem cross_smul_right (a : F) (u v : Vec3 F) : cross u (a * v) = a * cross u v := by
  ext <;> simp only [cross, Vec3.smul_x, Vec3.smul_y, Vec3.smul_z] <;> ring

theorem unit_vector_eq (sqrt : F → F) (v : Vec3 F) :
    unit_vector sqrt v = (1 / sqrt v.length_squared) * v := rfl

theorem Vec3.sub_ne_zero (a b : Vec3 F) (h : a ≠ b) : a - b ≠ Vec3.mk 0 0 0 := by
  intro h0
  apply h
  have hx := congrArg Vec3.x h0
  have hy := congrArg Vec3.y h0
  have hz := congrArg Vec3.z h0
  simp only [Vec3.sub_x, Vec3.sub_y, Vec3.sub_z] at hx hy hz
  ext
  · exact sub_eq_zero.mp hx
  · exact sub_eq_zero.mp hy
  · exact sub_eq_zero.mp hz

/-- The square root of a positive number is not zero. -/
theorem IsSqrt.ne_zero (sqrt : F → F) (hs : IsSqrt sqrt) (x : F) (hx : 0 < x) : sqrt x ≠ 0 := by
  intro h0
  have h := (hs x (le_of_lt hx)).2
  rw [h0, mul_zero] at h
  exact absurd h (ne_of_lt hx)

/-- The square root of one is one. -/
theorem IsSqrt.one (sqrt : F → F) (hs : IsSqrt sqrt) : sqrt 1 = 1 := by
  obtain ⟨h0, h1⟩ := hs 1 zero_le_one
  have h : (sqrt 1 - 1) * (sqrt 1 + 1) = 0 := by linear_combination h1
  rcases mul_eq_zero.mp h with h | h
  · exact sub_eq_zero.mp h
  · exact absurd h (by linarith)

/-- Normalising a non-zero vector gives a vector of squared length one. -/
theorem unit_vector_length_squared (sqrt : F → F) (hs : IsSqrt sqrt) (v : Vec3 F)
    (hv : v ≠ Vec3.mk 0 0 0) : (unit_vector sqrt v).length_squared = 1 := by
  have hpos := length_squared_pos v hv
  have hne := IsSqrt.ne_zero sqrt hs _ hpos
  have hsq := (hs _ (le_of_lt hpos)).2
  rw [unit_vector_eq, length_squared_smul]
  field_simp
  exact hsq.symm

/-- The basis computed by `Camera::Camera` in terms of squared lengths and dot products. -/
theorem Camera.basis (sqrt tan : F → F) (hs : IsSqrt sqrt) (look_from look_at view_up : Vec3 F)
    (vertical_fov aspect_ratio aperture focus_dist : F) (h1 : look_from ≠ look_at)
    (h2 : cross view_up (look_from - look_at) ≠ Vec3.mk 0 0 0) :
    (Camera.new sqrt tan look_from look_at view_up vertical_fov aspect_ratio aperture
        focus_dist).u.length_squared = 1 ∧
      (Camera.new sqrt tan look_from look_at view_up vertical_fov aspect_ratio aperture
        focus_dist).v.length_squared = 1 ∧
      (Camera.new sqrt tan look_from look_at view_up vertical_fov aspect_ratio aperture
        focus_dist).w.length_squared = 1 ∧
      dot (Camera.new sqrt tan look_from look_at view_up vertical_fov aspect_ratio aperture
          focus_dist).u
        (Camera.new sqrt tan look_from look_at view_up vertical_fov aspect_ratio aperture
          focus_dist).v = 0 ∧
      dot (Camera.new sqrt tan look_from look_at view_up vertical_fov aspect_ratio aperture
          focus_dist).v
        (Camera.new sqrt tan look_from look_at view_up vertical_fov aspect_ratio aperture
          focus_dist).w = 0 ∧
      dot (Camera.new sqrt tan look_from look_at view_up vertical_fov aspect_ratio aperture
          focus_dist).w
        (Camera.new sqrt tan look_from look_at view_up vertical_fov aspect_ratio aperture
          focus_dist).u = 0 := by
  have hd := Vec3.sub_ne_zero look_from look_at h1
  have hw := unit_vector_length_squared sqrt hs _ hd
  have hL := IsSqrt.ne_zero sqrt hs _ (length_squared_pos _ hd)
  have hc : cross view_up (unit_vector sqrt (look_from - look_at)) ≠ Vec3.mk 0 0 0 := by
    rw [unit_vector_eq, cross_smul_right]
    intro h0
    apply h2
    have hx := congrArg Vec3.x h0
    have hy := congrArg Vec3.y h0
    have hz := congrArg Vec3.z h0
    simp only [Vec3.smul_x, Vec3.smul_y, Vec3.smul_z, mul_eq_zero, one_div, inv_eq_zero,
      hL, false_or] at hx hy hz
    exact Vec3.ext hx hy hz
  have hu := unit_vector_length_squared sqrt hs _ hc
  have hwu : dot (unit_vector sqrt (look_from - look_at))
      (unit_vector sqrt (cross view_up (unit_vector sqrt (look_from - look_at)))) = 0 := by
    rw [unit_vector_eq sqrt (cross _ _), dot_smul_right, dot_comm, dot_cross_right, mul_zero]
  refine ⟨hu, ?_, hw, ?_, ?_, hwu⟩
  · show (cross _ _).length_squared = 1
    rw [length_squared_cross, hw, hu, hwu]
    ring
  · exact (dot_comm _ _).trans
      (dot_cross_right (unit_vector sqrt (look_from - look_at))
        (unit_vector sqrt (cross view_up (unit_vector sqrt (look_from - look_at)))))
  · exact dot_cross_left (unit_vector sqrt (look_from - look_at))
      (unit_vector sqrt (cross view_up (unit_vector sqrt (look_from - look_at))))

/-! ## The camera -/

/-- Whatever the lens sample, the ray of `get_ray(s, t)` taken to parameter one ends at the
point of the viewport it is aimed at. -/
theorem Camera.get_ray_target (cam : Camera F) (s t : F) (disk : Vec3 F) :
    (cam.get_ray s t disk).origin + (cam.get_ray s t disk).direction =
      cam.upper_left_corner + s * cam.horizontal - (1 - t) * cam.vertical := by
  ext <;> simp [Camera.get_ray, Ray.origin, Ray.direction]

/-- With a lens of radius zero `get_ray` ignores the lens sample. -/
theorem Camera.get_ray_of_lens_radius_zero (cam : Camera F) (h : cam.lens_radius = 0)
    (s t : F) (disk : Vec3 F) :
    cam.get_ray s t disk =
      Ray.mk cam.origin
        ((cam.upper_left_corner + s * cam.horizontal - (1 - t) * cam.vertical) - cam.origin) := by
  have ho : cam.origin + ((cam.lens_radius * disk).x * cam.u +
      (cam.lens_radius * disk).y * cam.v) = cam.origin := by
    ext <;> simp [h]
  simp only [Camera.get_ray, ho]

/-- C13: a camera built with `aperture = 0` returns, for every `(s, t)` and every lens
sample, the ray with origin `look_from` and direction
`upper_left_corner + s*horizontal - (1-t)*vertical - look_from`; two calls with the same
`(s, t)` give the same ray whatever the samples. -/
theorem Camera_get_ray_deterministic (sqrt tan : F → F) (look_from look_at view_up : Vec3 F)
    (vertical_fov aspect_ratio focus_dist s t : F) (disk1 disk2 : Vec3 F) :
    let cam : Camera F :=
      Camera.new sqrt tan look_from look_at view_up vertical_fov aspect_ratio 0 focus_dist
    (cam.get_ray s t disk1).origin = look_from ∧
      (cam.get_ray s t disk1).direction =
        cam.upper_left_corner + s * cam.horizontal - (1 - t) * cam.vertical - look_from ∧
      cam.get_ray s t disk1 = cam.get_ray s t disk2 := by
  intro cam
  have h : cam.lens_radius = 0 := by
    show (0 : F) / 2 = 0
    simp
  rw [Camera.get_ray_of_lens_radius_zero cam h s t disk1,
    Camera.get_ray_of_lens_radius_zero cam h s t disk2]
  exact ⟨rfl, rfl, rfl⟩

/-- The half field of view of `example_camera` has a positive tangent. -/
theorem tan_example_pos : 0 < Real.tan (degrees_to_radians ((90 : ℝ) / 2)) := by
  apply Real.tan_pos_of_pos_of_lt_pi_div_two
  · simp only [degrees_to_radians, pi]
    norm_num
  · have h3 := Real.pi_gt_three
    simp only [degrees_to_radians, pi]
    norm_num
    linarith

/-- The vertical span of `example_camera` over the reals. -/
theorem example_camera_vertical (aperture : ℝ) :
    (example_camera Real.sqrt Real.tan aperture).vertical =
      Vec3.mk 0 (Real.tan (degrees_to_radians ((90 : ℝ) / 2)) * 2) 0 := by
  ext <;> simp [example_camera, Camera.new, unit_vector, Vec3.length, Vec3.length_squared, cross]

/-- C14 fails as stated: for the camera at `(0,0,1)` looking at the origin with a 90 degree
field of view and `aperture = 0`, the ray of `get_ray(0, 0)` taken to parameter one is not
at `upper_left_corner`; it is one `vertical` span below it. -/
theorem Camera_get_ray_zero_zero_counterexample :
    ((example_camera Real.sqrt Real.tan 0).get_ray 0 0 (Vec3.mk 0 0 0)).origin +
        ((example_camera Real.sqrt Real.tan 0).get_ray 0 0 (Vec3.mk 0 0 0)).direction ≠
      (example_camera Real.sqrt Real.tan 0).upper_left_corner := by
  intro h
  rw [Camera.get_ray_target] at h
  have hy := congrArg Vec3.y h
  simp only [Vec3.sub_y, Vec3.add_y, Vec3.smul_y, example_camera_vertical] at hy
  have hpos := tan_example_pos
  linarith

/-- C14 as amended, over exact real arithmetic: for every camera built by the constructor
and every lens sample, the ray of `get_ray(0, 1)` is aimed at the upper-left corner, its
direction being `upper_left_corner - origin`, so that `origin + direction =
upper_left_corner`, where `upper_left_corner = look_from - horizontal/2 + vertical/2 -
focus_dist*w`; the ray of `get_ray(0, 0)` is aimed one `vertical` span lower, its
direction being `(upper_left_corner - vertical) - origin`, so that `origin + direction =
upper_left_corner - vertical`. -/
theorem Camera_get_ray_corners (sqrt tan : F → F) (look_from look_at view_up : Vec3 F)
    (vertical_fov aspect_ratio aperture focus_dist : F) (disk : Vec3 F) :
    let cam : Camera F :=
      Camera.new sqrt tan look_from look_at view_up vertical_fov aspect_ratio aperture
        focus_dist
    (cam.get_ray 0 1 disk).origin + (cam.get_ray 0 1 disk).direction = cam.upper_left_corner ∧
      cam.upper_left_corner =
        look_from - cam.horizontal / (2 : F) + cam.vertical / (2 : F) - focus_dist * cam.w ∧
      (cam.get_ray 0 0 disk).origin + (cam.get_ray 0 0 disk).direction =
        cam.upper_left_corner - cam.vertical ∧
      (cam.get_ray 0 1 disk).direction = cam.upper_left_corner - (cam.get_ray 0 1 disk).origin ∧
      (cam.get_ray 0 0 disk).direction =
        (cam.upper_left_corner - cam.vertical) - (cam.get_ray 0 0 disk).origin := by
  intro cam
  refine ⟨?_, rfl, ?_, ?_, ?_⟩
  · rw [Camera.get_ray_target]
    ext <;> simp
  · rw [Camera.get_ray_target]
    ext <;> simp
  · ext <;> simp [Camera.get_ray, Ray.origin, Ray.direction]
  · ext <;> simp [Camera.get_ray, Ray.origin, Ray.direction]

/-- The component along `w` of the vector from `look_from` to a viewport point, for any
basis and any spans `a*u`, `b*v`. -/
theorem focal_plane_aux (look_from u v w : Vec3 F) (a b focus_dist s t : F) :
    dot ((look_from - (a * u) / (2 : F) + (b * v) / (2 : F) - focus_dist * w + s * (a * u) -
        (1 - t) * (b * v)) - look_from) w =
      (s - 1 / 2) * a * dot u w + (t - 1 / 2) * b * dot v w - focus_dist * dot w w := by
  simp only [dot, Vec3.sub_x, Vec3.sub_y, Vec3.sub_z, Vec3.add_x, Vec3.add_y, Vec3.add_z,
    Vec3.smul_x, Vec3.smul_y, Vec3.smul_z, Vec3.div_x, Vec3.div_y, Vec3.div_z]
  ring

/-- C15: for a camera built from `look_from ≠ look_at`, the point
`P(s,t) = upper_left_corner + s*horizontal - (1-t)*vertical` that a ray is aimed at
satisfies `dot(P(s,t) - look_from, w) = -focus_dist`, whatever the field of view and the
aspect ratio. -/
theorem Camera_focal_plane (sqrt tan : F → F) (hs : IsSqrt sqrt)
    (look_from look_at view_up : Vec3 F) (vertical_fov aspect_ratio aperture focus_dist : F)
    (h1 : look_from ≠ look_at) (s t : F) :
    let cam : Camera F :=
      Camera.new sqrt tan look_from look_at view_up vertical_fov aspect_ratio aperture
        focus_dist
    dot ((cam.upper_left_corner + s * cam.horizontal - (1 - t) * cam.vertical) - look_from)
      cam.w = -focus_dist := by
  intro cam
  have hd := Vec3.sub_ne_zero look_from look_at h1
  have hww : dot cam.w cam.w = 1 := unit_vector_length_squared sqrt hs _ hd
  have huw : dot cam.u cam.w = 0 := by
    show dot (unit_vector sqrt (cross view_up cam.w)) cam.w = 0
    rw [unit_vector_eq, dot_smul_left, dot_cross_right, mul_zero]
  have hvw : dot cam.v cam.w = 0 := dot_cross_left cam.w cam.u
  have key := focal_plane_aux look_from cam.u cam.v cam.w
    (tan (degrees_to_radians (vertical_fov / 2)) * 2 * aspect_ratio * focus_dist)
    (tan (degrees_to_radians (vertical_fov / 2)) * 2 * focus_dist) focus_dist s t
  rw [huw, hvw, hww] at key
  rw [show dot ((cam.upper_left_corner + s * cam.horizontal - (1 - t) * cam.vertical) -
    look_from) cam.w = _ from key]
  ring

/-- C15 at a concrete input: the camera at `(0,0,1)` looking at the origin, focus
distance 1, viewport coordinates `(1/4, 3/4)`. -/
theorem Camera_focal_plane_witness :
    IsSqrt Real.sqrt ∧ (Vec3.mk 0 0 1 : Vec3 ℝ) ≠ Vec3.mk 0 0 0 ∧
      dot (((example_camera Real.sqrt Real.tan 0).upper_left_corner +
          (1 / 4 : ℝ) * (example_camera Real.sqrt Real.tan 0).horizontal -
          (1 - (3 / 4 : ℝ)) * (example_camera Real.sqrt Real.tan 0).vertical) - Vec3.mk 0 0 1)
        (example_camera Real.sqrt Real.tan 0).w = -1 :=
  ⟨real_isSqrt, by simp,
    Camera_focal_plane Real.sqrt Real.tan real_isSqrt (Vec3.mk 0 0 1) (Vec3.mk 0 0 0)
      (Vec3.mk 0 1 0) 90 1 0 1 (by simp) (1 / 4) (3 / 4)⟩

/-- C20: for `look_from ≠ look_at` and `view_up` not parallel to `look_from - look_at`, the
constructor computes `w = unit(look_from - look_at)`, `u = unit(cross(view_up, w))` and
`v = cross(w, u)`, each of length 1, with `dot(u,v) = dot(v,w) = dot(w,u) = 0`. -/
theorem Camera_basis_orthonormal (sqrt tan : F → F) (hs : IsSqrt sqrt)
    (look_from look_at view_up : Vec3 F) (vertical_fov aspect_ratio aperture focus_dist : F)
    (h1 : look_from ≠ look_at)
    (h2 : cross view_up (look_from - look_at) ≠ Vec3.mk 0 0 0) :
    let cam : Camera F :=
      Camera.new sqrt tan look_from look_at view_up vertical_fov aspect_ratio aperture
        focus_dist
    cam.w = unit_vector sqrt (look_from - look_at) ∧
      cam.u = unit_vector sqrt (cross view_up cam.w) ∧
      cam.v = cross cam.w cam.u ∧
      cam.u.length sqrt = 1 ∧ cam.v.length sqrt = 1 ∧ cam.w.length sqrt = 1 ∧
      dot cam.u cam.v = 0 ∧ dot cam.v cam.w = 0 ∧ dot cam.w cam.u = 0 := by
  intro cam
  obtain ⟨hu, hv, hw, huv, hvw, hwu⟩ := Camera.basis sqrt tan hs look_from look_at view_up
    vertical_fov aspect_ratio aperture focus_dist h1 h2
  refine ⟨rfl, rfl, rfl, ?_, ?_, ?_, huv, hvw, hwu⟩
  · show sqrt cam.u.length_squared = 1
    rw [show cam.u.length_squared = 1 from hu]
    exact IsSqrt.one sqrt hs
  · show sqrt cam.v.length_squared = 1
    rw [show cam.v.length_squared = 1 from hv]
    exact IsSqrt.one sqrt hs
  · show sqrt cam.w.length_squared = 1
    rw [show cam.w.length_squared = 1 from hw]
    exact IsSqrt.one sqrt hs

/-- The up vector `(0,1,0)` is not parallel to the view axis of `example_camera`. -/
theorem example_camera_up_not_parallel :
    cross (Vec3.mk 0 1 0 : Vec3 ℝ) (Vec3.mk 0 0 1 - Vec3.mk 0 0 0) ≠ Vec3.mk 0 0 0 := by
  intro h
  have hx := congrArg Vec3.x h
  simp [cross] at hx

/-- C20 at a concrete input: the basis of the camera at `(0,0,1)` looking at the origin
with `view_up = (0,1,0)`. -/
theorem Camera_basis_orthonormal_witness :
    IsSqrt Real.sqrt ∧ (Vec3.mk 0 0 1 : Vec3 ℝ) ≠ Vec3.mk 0 0 0 ∧
      cross (Vec3.mk 0 1 0 : Vec3 ℝ) (Vec3.mk 0 0 1 - Vec3.mk 0 0 0) ≠ Vec3.mk 0 0 0 ∧
      (example_camera Real.sqrt Real.tan 0).u.length Real.sqrt = 1 ∧
      dot (example_camera Real.sqrt Real.tan 0).u (example_camera Real.sqrt Real.tan 0).v = 0 :=
  ⟨real_isSqrt, by simp, example_camera_up_not_parallel,
    (Camera_basis_orthonormal Real.sqrt Real.tan real_isSqrt (Vec3.mk 0 0 1) (Vec3.mk 0 0 0)
      (Vec3.mk 0 1 0) 90 1 0 1 (by simp) example_camera_up_not_parallel).2.2.2.1,
    (Camera_basis_orthonormal Real.sqrt Real.tan real_isSqrt (Vec3.mk 0 0 1) (Vec3.mk 0 0 0)
      (Vec3.mk 0 1 0) 90 1 0 1 (by simp) example_camera_up_not_parallel).2.2.2.2.2.2.1⟩

theorem Camera.get_ray_origin_sub (cam : Camera F) (s t : F) (disk : Vec3 F) :
    (cam.get_ray s t disk).origin - cam.origin =
      (cam.lens_radius * disk.x) * cam.u + (cam.lens_radius * disk.y) * cam.v := by
  ext <;> simp [Camera.get_ray, Ray.origin]

theorem Camera.get_ray_at_one (cam : Camera F) (s t : F) (disk : Vec3 F) :
    (cam.get_ray s t disk).at_ 1 =
      cam.upper_left_corner + s * cam.horizontal - (1 - t) * cam.vertical := by
  ext <;> simp [Camera.get_ray, Ray.at_]

theorem length_squared_comb (a b : F) (u v : Vec3 F) :
    (a * u + b * v).length_squared =
      a * a * u.length_squared + 2 * a * b * dot u v + b * b * v.length_squared := by
  simp only [Vec3.length_squared, dot, Vec3.add_x, Vec3.add_y, Vec3.add_z, Vec3.smul_x,
    Vec3.smul_y, Vec3.smul_z]
  ring

/-- Normalising any vector gives a vector of squared length at most one. -/
theorem unit_vector_length_squared_le_one (sqrt : F → F) (hs : IsSqrt sqrt) (x : Vec3 F) :
    (unit_vector sqrt x).length_squared ≤ 1 := by
  obtain ⟨-, hLL⟩ := hs _ (length_squared_nonneg x)
  rw [unit_vector_eq, length_squared_smul]
  by_cases hL : sqrt x.length_squared = 0
  · rw [hL]
    simp
  · have h1 : 1 / sqrt x.length_squared * (1 / sqrt x.length_squared) * x.length_squared = 1 := by
      field_simp
      exact hLL.symm
    rw [h1]

/-- For every set of construction parameters `u` and `v` are orthogonal, of squared length
at most one. -/
theorem Camera.basis_bounds (sqrt tan : F → F) (hs : IsSqrt sqrt)
    (look_from look_at view_up : Vec3 F) (vertical_fov aspect_ratio aperture focus_dist : F) :
    (Camera.new sqrt tan look_from look_at view_up vertical_fov aspect_ratio aperture
        focus_dist).u.length_squared ≤ 1 ∧
      (Camera.new sqrt tan look_from look_at view_up vertical_fov aspect_ratio aperture
        focus_dist).v.length_squared ≤ 1 ∧
      dot (Camera.new sqrt tan look_from look_at view_up vertical_fov aspect_ratio aperture
          focus_dist).u
        (Camera.new sqrt tan look_from look_at view_up vertical_fov aspect_ratio aperture
          focus_dist).v = 0 := by
  have hw := unit_vector_length_squared_le_one sqrt hs (look_from - look_at)
  have hu := unit_vector_length_squared_le_one sqrt hs
    (cross view_up (unit_vector sqrt (look_from - look_at)))
  have hwu : dot (unit_vector sqrt (look_from - look_at))
      (unit_vector sqrt (cross view_up (unit_vector sqrt (look_from - look_at)))) = 0 := by
    rw [unit_vector_eq sqrt (cross _ _), dot_smul_right, dot_comm, dot_cross_right, mul_zero]
  refine ⟨hu, ?_, ?_⟩
  · show (cross (unit_vector sqrt (look_from - look_at))
      (unit_vector sqrt (cross view_up (unit_vector sqrt (look_from - look_at))))).length_squared
        ≤ 1
    rw [length_squared_cross, hwu]
    have := mul_le_one₀ hw (length_squared_nonneg _) hu
    linarith
  · exact (dot_comm _ _).trans
      (dot_cross_right (unit_vector sqrt (look_from - look_at))
        (unit_vector sqrt (cross view_up (unit_vector sqrt (look_from - look_at)))))

/-- C16 fails as stated. With `aperture = 0`, the value `main` uses, the origin of the ray
is `look_from` itself, so the offset has length `0`, which is not less than
`lens_radius = 0`; with `aperture = -2` the lens radius is `-1`, below every length. -/
theorem Camera_lens_offset_counterexample :
    ¬ ((((example_camera Real.sqrt Real.tan 0).get_ray (1 / 2) (1 / 2)
          (Vec3.mk (1 / 2) 0 0)).origin - Vec3.mk 0 0 1).length Real.sqrt <
        (example_camera Real.sqrt Real.tan 0).lens_radius) ∧
      ¬ ((((example_camera Real.sqrt Real.tan (-2)).get_ray (1 / 2) (1 / 2)
          (Vec3.mk (1 / 2) 0 0)).origin - Vec3.mk 0 0 1).length Real.sqrt <
        (example_camera Real.sqrt Real.tan (-2)).lens_radius) := by
  constructor
  · have h : (example_camera Real.sqrt Real.tan 0).lens_radius = 0 := by
      show (0 : ℝ) / 2 = 0
      simp
    rw [Camera.get_ray_of_lens_radius_zero _ h, h]
    have h0 : (Ray.mk (example_camera Real.sqrt Real.tan 0).origin
        (((example_camera Real.sqrt Real.tan 0).upper_left_corner +
          (1 / 2 : ℝ) * (example_camera Real.sqrt Real.tan 0).horizontal -
          (1 - (1 / 2 : ℝ)) * (example_camera Real.sqrt Real.tan 0).vertical) -
          (example_camera Real.sqrt Real.tan 0).origin)).origin - Vec3.mk 0 0 1 =
        (Vec3.mk 0 0 0 : Vec3 ℝ) := by
      ext <;> simp [Ray.origin, example_camera, Camera.new]
    rw [h0]
    simp [Vec3.length, Vec3.length_squared]
  · have h : (example_camera Real.sqrt Real.tan (-2)).lens_radius = -1 := by
      show (-2 : ℝ) / 2 = -1
      norm_num
    rw [h]
    intro hlt
    have hnn : 0 ≤ ((((example_camera Real.sqrt Real.tan (-2)).get_ray (1 / 2) (1 / 2)
        (Vec3.mk (1 / 2) 0 0)).origin - Vec3.mk 0 0 1).length Real.sqrt) :=
      Real.sqrt_nonneg _
    linarith

/-- C16 as amended, over exact real arithmetic: for every camera built by the constructor
(any aperture), every `(s, t)` and every two samples of `random_in_unit_disk`, both rays
of `get_ray(s, t)` have direction `P - origin` for the same point
`P = upper_left_corner + s*horizontal - (1-t)*vertical` and reach `P` at parameter 1, and
the origin differs from `look_from` by the combination
`(lens_radius*x)*u + (lens_radius*y)*v` of `u` and `v`, whose length is at most
`|lens_radius| = |aperture|/2`, strictly less when `aperture ≠ 0`, hence less than
`lens_radius` when `aperture > 0`. -/
theorem Camera_get_ray_converges (sqrt tan : F → F) (hs : IsSqrt sqrt)
    (look_from look_at view_up : Vec3 F) (vertical_fov aspect_ratio aperture focus_dist : F)
    (s t : F) (disk1 disk2 : Vec3 F) (hd1 : disk1.length_squared < 1) :
    let cam : Camera F :=
      Camera.new sqrt tan look_from look_at view_up vertical_fov aspect_ratio aperture
        focus_dist
    let P : Vec3 F := cam.upper_left_corner + s * cam.horizontal - (1 - t) * cam.vertical
    ((cam.get_ray s t disk1).at_ 1 = P ∧ (cam.get_ray s t disk2).at_ 1 = P ∧
        (cam.get_ray s t disk1).at_ 1 = (cam.get_ray s t disk2).at_ 1) ∧
      ((cam.get_ray s t disk1).direction = P - (cam.get_ray s t disk1).origin ∧
        (cam.get_ray s t disk2).direction = P - (cam.get_ray s t disk2).origin) ∧
      cam.lens_radius = aperture / 2 ∧
      (cam.get_ray s t disk1).origin - look_from =
        (cam.lens_radius * disk1.x) * cam.u + (cam.lens_radius * disk1.y) * cam.v ∧
      ((cam.get_ray s t disk1).origin - look_from).length sqrt ≤ |cam.lens_radius| ∧
      (aperture ≠ 0 →
        ((cam.get_ray s t disk1).origin - look_from).length sqrt < |cam.lens_radius|) ∧
      (0 < aperture →
        ((cam.get_ray s t disk1).origin - look_from).length sqrt < cam.lens_radius) := by
  intro cam P
  obtain ⟨hu1, hv1, huv⟩ := Camera.basis_bounds sqrt tan hs look_from look_at view_up
    vertical_fov aspect_ratio aperture focus_dist
  have hoff := Camera.get_ray_origin_sub cam s t disk1
  have hxy : disk1.x * disk1.x + disk1.y * disk1.y < 1 := by
    have := mul_self_nonneg disk1.z
    unfold Vec3.length_squared at hd1
    linarith
  have hls : ((cam.get_ray s t disk1).origin - cam.origin).length_squared =
      cam.lens_radius * disk1.x * (cam.lens_radius * disk1.x) * cam.u.length_squared +
        cam.lens_radius * disk1.y * (cam.lens_radius * disk1.y) * cam.v.length_squared := by
    rw [hoff, length_squared_comb, show dot cam.u cam.v = 0 from huv]
    ring
  have hnn := length_squared_nonneg ((cam.get_ray s t disk1).origin - cam.origin)
  obtain ⟨hS0, hSS⟩ := hs _ hnn
  have e1 := mul_nonneg (mul_self_nonneg (cam.lens_radius * disk1.x))
    (sub_nonneg.mpr (show cam.u.length_squared ≤ 1 from hu1))
  have e2 := mul_nonneg (mul_self_nonneg (cam.lens_radius * disk1.y))
    (sub_nonneg.mpr (show cam.v.length_squared ≤ 1 from hv1))
  have hX : ((cam.get_ray s t disk1).origin - cam.origin).length_squared ≤
      cam.lens_radius * cam.lens_radius * (disk1.x * disk1.x + disk1.y * disk1.y) := by
    rw [hls]
    linarith
  have habs := abs_mul_abs_self cam.lens_radius
  have hle : sqrt ((cam.get_ray s t disk1).origin - cam.origin).length_squared ≤
      |cam.lens_radius| := by
    by_contra hcon
    have hlt := mul_self_lt_mul_self (abs_nonneg cam.lens_radius) (not_le.mp hcon)
    have e3 := mul_nonneg (mul_self_nonneg cam.lens_radius) (le_of_lt (sub_pos.mpr hxy))
    rw [habs, hSS] at hlt
    linarith
  have hlt : aperture ≠ 0 →
      sqrt ((cam.get_ray s t disk1).origin - cam.origin).length_squared < |cam.lens_radius| := by
    intro hap
    have hlr : cam.lens_radius ≠ 0 := by
      show aperture / 2 ≠ 0
      exact div_ne_zero hap two_ne_zero
    by_contra hcon
    have hge := mul_self_le_mul_self (abs_nonneg cam.lens_radius) (not_lt.mp hcon)
    have e4 := mul_pos (mul_self_pos.mpr hlr) (sub_pos.mpr hxy)
    rw [habs, hSS] at hge
    linarith
  refine ⟨⟨Camera.get_ray_at_one cam s t disk1, Camera.get_ray_at_one cam s t disk2, ?_⟩,
    ⟨rfl, rfl⟩, rfl, hoff, hle, hlt, ?_⟩
  · rw [Camera.get_ray_at_one, Camera.get_ray_at_one]
  · intro hap
    have hpos : 0 < cam.lens_radius := by
      show 0 < aperture / 2
      linarith
    have h := hlt (ne_of_gt hap)
    rw [abs_of_pos hpos] at h
    exact h

/-- The amended C16 at a concrete input: the camera at `(0,0,1)` looking at the origin with
`aperture = 2` and the lens samples `(1/2, 0, 0)` and `(0, 0, 0)`. -/
theorem Camera_get_ray_converges_witness :
    IsSqrt Real.sqrt ∧ (Vec3.mk (1 / 2) 0 0 : Vec3 ℝ).length_squared < 1 ∧
      ((example_camera Real.sqrt Real.tan 2).get_ray (1 / 4) (3 / 4) (Vec3.mk (1 / 2) 0 0)).at_ 1 =
        ((example_camera Real.sqrt Real.tan 2).get_ray (1 / 4) (3 / 4) (Vec3.mk 0 0 0)).at_ 1 ∧
      (((example_camera Real.sqrt Real.tan 2).get_ray (1 / 4) (3 / 4)
          (Vec3.mk (1 / 2) 0 0)).origin - Vec3.mk 0 0 1).length Real.sqrt <
        (example_camera Real.sqrt Real.tan 2).lens_radius := by
  have hd : (Vec3.mk (1 / 2) 0 0 : Vec3 ℝ).length_squared < 1 := by
    simp only [Vec3.length_squared]
    norm_num
  have h := Camera_get_ray_converges Real.sqrt Real.tan real_isSqrt (Vec3.mk 0 0 1)
    (Vec3.mk 0 0 0) (Vec3.mk 0 1 0) 90 1 2 1 (1 / 4) (3 / 4) (Vec3.mk (1 / 2) 0 0)
    (Vec3.mk 0 0 0) hd
  exact ⟨real_isSqrt, hd, h.1.2.2, h.2.2.2.2.2.2 (by norm_num)⟩

/-! ## Output conversion and the metal constructor -/

theorem clamp_bounds (x lo hi : F) (h : lo ≤ hi) : lo ≤ clamp x lo hi ∧ clamp x lo hi ≤ hi := by
  unfold clamp
  split_ifs with h1 h2
  · exact ⟨le_rfl, h⟩
  · exact ⟨h, le_rfl⟩
  · exact ⟨not_lt.mp h1, not_lt.mp h2⟩

theorem clamp_of_mem (x lo hi : F) (h1 : lo ≤ x) (h2 : x ≤ hi) : clamp x lo hi = x := by
  unfold clamp
  rw [if_neg (not_lt.mpr h1), if_neg (not_lt.mpr h2)]

/-- C17: `clamp(x, 0, 0.999)` lies in `[0, 0.999]` and is `x` when `x` is in that range; the
channel value `floor(256 * clamp(sqrt(c/n), 0, 0.999))` lies between 0 and 255, and it is
exactly 255 for every oversaturated average: whenever `sqrt(c/n) ≥ 0.999`, that is
whenever `c/n ≥ 0.998001`, in particular for `c/n ≥ 1` and for `c/n = 100`. -/
theorem write_color_channel_in_range [FloorRing F] (sqrt : F → F) (hs : IsSqrt sqrt)
    (x c : F) (n : ℤ) :
    (0 ≤ clamp x 0 (999 / 1000) ∧ clamp x 0 (999 / 1000) ≤ 999 / 1000) ∧
      (0 ≤ x → x ≤ 999 / 1000 → clamp x 0 (999 / 1000) = x) ∧
      (0 ≤ write_color_channel sqrt c n ∧ write_color_channel sqrt c n ≤ 255) ∧
      (c / (n : F) = 100 → write_color_channel sqrt c n = 255) ∧
      (999 / 1000 ≤ sqrt (c / (n : F)) → write_color_channel sqrt c n = 255) ∧
      (998001 / 1000000 ≤ c / (n : F) → write_color_channel sqrt c n = 255) ∧
      (1 ≤ c / (n : F) → write_color_channel sqrt c n = 255) := by
  have h999 : (0 : F) ≤ 999 / 1000 := by norm_num
  have hb : ∀ y : F, 0 ≤ 256 * clamp y 0 (999 / 1000) ∧ 256 * clamp y 0 (999 / 1000) < 256 := by
    intro y
    obtain ⟨h1, h2⟩ := clamp_bounds y 0 (999 / 1000) h999
    constructor
    · linarith
    · linarith
  have hsat : 999 / 1000 ≤ sqrt (c / (n : F)) → write_color_channel sqrt c n = 255 := by
    intro hge
    obtain ⟨h1, -⟩ := hb (sqrt (c / (n : F)))
    simp only [write_color_channel, if_pos h1]
    have hcl : clamp (sqrt (c / (n : F))) 0 (999 / 1000) = 999 / 1000 := by
      unfold clamp
      rw [if_neg (not_lt.mpr (le_trans h999 hge))]
      split_ifs with h2
      · rfl
      · exact le_antisymm (not_lt.mp h2) hge
    rw [hcl, Int.floor_eq_iff]
    constructor <;> norm_num
  have havg : 998001 / 1000000 ≤ c / (n : F) → write_color_channel sqrt c n = 255 := by
    intro hge
    apply hsat
    obtain ⟨g0, g1⟩ := hs (c / (n : F)) (le_trans (by norm_num) hge)
    by_contra hcon
    have hlt := not_le.mp hcon
    have : sqrt (c / (n : F)) * sqrt (c / (n : F)) < 999 / 1000 * (999 / 1000) :=
      mul_self_lt_mul_self g0 hlt
    rw [g1] at this
    norm_num at this
    linarith
  refine ⟨clamp_bounds x 0 (999 / 1000) h999, clamp_of_mem x 0 (999 / 1000), ?_, ?_, hsat, havg,
    ?_⟩
  · obtain ⟨h1, h2⟩ := hb (sqrt (c / (n : F)))
    simp only [write_color_channel, if_pos h1]
    refine ⟨Int.floor_nonneg.mpr h1, ?_⟩
    have : ⌊256 * clamp (sqrt (c / (n : F))) 0 (999 / 1000)⌋ < 256 := by
      rw [Int.floor_lt]
      exact_mod_cast h2
    omega
  · intro hc
    apply havg
    rw [hc]
    norm_num
  · intro hc
    apply havg
    linarith

/-- C17 at a concrete input: an accumulated value of 400 over 4 samples maps to 255. -/
theorem write_color_channel_in_range_witness :
    IsSqrt Real.sqrt ∧ write_color_channel Real.sqrt (400 : ℝ) 4 = 255 :=
  ⟨real_isSqrt,
    (write_color_channel_in_range Real.sqrt real_isSqrt (0 : ℝ) 400 4).2.2.2.1 (by norm_num)⟩

/-- C18 fails as stated: `Metal(albedo, -1)` stores the fuzz `-1`, which is below 0. -/
theorem Metal_fuzz_counterexample :
    (Metal.new (Vec3.mk 1 1 1) (-1 : ℚ)).fuzz = -1 ∧ ¬ (0 ≤ (Metal.new (Vec3.mk 1 1 1) (-1 : ℚ)).fuzz) := by
  have h : (Metal.new (Vec3.mk 1 1 1) (-1 : ℚ)).fuzz = -1 := by
    simp [Metal.new]
  rw [h]
  exact ⟨rfl, by norm_num⟩

/-- C18 as amended: for every albedo and every `f`, the fuzz stored by `Metal(albedo, f)` is
at most 1, being `f` itself when `f < 1` and `1` otherwise; it is at least 0 whenever
`f` is. -/
theorem Metal_fuzz_at_most_one (a : Vec3 F) (f : F) :
    (Metal.new a f).fuzz ≤ 1 ∧ (f < 1 → (Metal.new a f).fuzz = f) ∧
      (1 ≤ f → (Metal.new a f).fuzz = 1) ∧ (0 ≤ f → 0 ≤ (Metal.new a f).fuzz) := by
  by_cases h : f < 1
  · have hf : (Metal.new a f).fuzz = f := by simp [Metal.new, h]
    rw [hf]
    exact ⟨le_of_lt h, fun _ => rfl, fun h1 => absurd h (not_lt.mpr h1), fun h0 => h0⟩
  · have hf : (Metal.new a f).fuzz = 1 := by simp [Metal.new, h]
    rw [hf]
    exact ⟨le_rfl, fun h1 => absurd h1 h, fun _ => rfl, fun _ => zero_le_one⟩

/-! ## The normal of a sphere hit -/

/-- A successful `Sphere::hit` fills the record for a root at which the ray is on the
sphere. -/
theorem Sphere.hit_true_fill (sqrt : F → F) (hs : IsSqrt sqrt) (s : Sphere F M) (r : Ray F)
    (hd : r.direction ≠ Vec3.mk 0 0 0) (t_min : F) (t_max : WithTop F) (rec : hit_record F M)
    (h : (s.hit sqrt r t_min t_max rec).1 = true) :
    ∃ root : F, s.hit sqrt r t_min t_max rec = Sphere.fill_record s r root rec ∧
      (r.at_ root - s.center).length_squared = s.radius * s.radius := by
  have ha : r.direction.length_squared ≠ 0 := ne_of_gt (length_squared_pos r.direction hd)
  rcases Sphere.hit_cases sqrt s r t_min t_max rec with hc | ⟨hdisc, root, hroot, -, -, hc⟩
  · rw [hc] at h
    exact absurd h (by simp)
  · refine ⟨root, hc, ?_⟩
    have hq := Sphere.quadratic_root _ _ _ _ root ha (hs _ hdisc).2 hroot
    rw [Ray.at_length_squared]
    linear_combination hq

theorem length_squared_neg (v : Vec3 F) : (-v).length_squared = v.length_squared := by
  simp only [Vec3.length_squared, Vec3.neg_x, Vec3.neg_y, Vec3.neg_z]
  ring

theorem length_squared_div (v : Vec3 F) (a : F) :
    (v / a).length_squared = 1 / a * (1 / a) * v.length_squared := by
  simp only [Vec3.length_squared, Vec3.div_x, Vec3.div_y, Vec3.div_z]
  ring

theorem dot_div_left (v w : Vec3 F) (a : F) : dot (v / a) w = 1 / a * dot v w := by
  simp only [dot, Vec3.div_x, Vec3.div_y, Vec3.div_z]
  ring

theorem dot_div_right (v w : Vec3 F) (a : F) : dot v (w / a) = 1 / a * dot v w := by
  simp only [dot, Vec3.div_x, Vec3.div_y, Vec3.div_z]
  ring

/-- The normal that `Sphere::hit` stores for an accepted root. -/
theorem Sphere.fill_record_normal (s : Sphere F M) (r : Ray F) (root : F)
    (rec : hit_record F M) :
    (Sphere.fill_record s r root rec).2.normal =
      if dot r.direction ((r.at_ root - s.center) / s.radius) < 0 then
        (r.at_ root - s.center) / s.radius
      else -((r.at_ root - s.center) / s.radius) := by
  simp only [Sphere.fill_record, hit_record.set_face_normal, decide_eq_true_eq]

/-- The front-face flag that `Sphere::hit` stores for an accepted root. -/
theorem Sphere.fill_record_inward (s : Sphere F M) (r : Ray F) (root : F)
    (rec : hit_record F M) :
    ((Sphere.fill_record s r root rec).2.inward = true ↔
      dot r.direction ((r.at_ root - s.center) / s.radius) < 0) := by
  simp only [Sphere.fill_record, hit_record.set_face_normal, decide_eq_true_eq]

/-- The material handle that `Sphere::hit` stores is the sphere's. -/
theorem Sphere.fill_record_mat_ptr (s : Sphere F M) (r : Ray F) (root : F)
    (rec : hit_record F M) : (Sphere.fill_record s r root rec).2.mat_ptr = s.mat_ptr := rfl

/-- C21: for a sphere of non-zero radius and a ray of non-zero direction, whenever
`Sphere::hit` returns true the stored normal has unit length, `|rec.normal|^2 = 1`. -/
theorem Sphere_hit_normal_unit (sqrt : F → F) (hs : IsSqrt sqrt) (s : Sphere F M) (r : Ray F)
    (hd : r.direction ≠ Vec3.mk 0 0 0) (hr : s.radius ≠ 0) (t_min : F) (t_max : WithTop F)
    (rec : hit_record F M) (h : (s.hit sqrt r t_min t_max rec).1 = true) :
    (s.hit sqrt r t_min t_max rec).2.normal.length_squared = 1 ∧
      (s.hit sqrt r t_min t_max rec).2.normal.length sqrt = 1 := by
  obtain ⟨root, hfill, hon⟩ := Sphere.hit_true_fill sqrt hs s r hd t_min t_max rec h
  have h1 : (s.hit sqrt r t_min t_max rec).2.normal.length_squared = 1 := by
    rw [hfill, Sphere.fill_record_normal]
    split_ifs
    · rw [length_squared_div, hon]
      field_simp
    · rw [length_squared_neg, length_squared_div, hon]
      field_simp
  refine ⟨h1, ?_⟩
  show sqrt (s.hit sqrt r t_min t_max rec).2.normal.length_squared = 1
  rw [h1]
  exact IsSqrt.one sqrt hs

/-- C21 at a concrete input: the hit of the unit sphere by the ray from `(0,0,-3)` along
`(0,0,1)` stores a normal of squared length one. -/
theorem Sphere_hit_normal_unit_witness :
    IsSqrt Real.sqrt ∧ (z_ray : Ray ℝ).direction ≠ Vec3.mk 0 0 0 ∧
      (unit_sphere (7 : ℕ) : Sphere ℝ ℕ).radius ≠ 0 ∧
      ((unit_sphere (7 : ℕ)).hit Real.sqrt (z_ray : Ray ℝ) 0 10 (blank_record 0)).1 = true ∧
      ((unit_sphere (7 : ℕ)).hit Real.sqrt (z_ray : Ray ℝ) 0 10
        (blank_record 0)).2.normal.length_squared = 1 := by
  have hd : (z_ray : Ray ℝ).direction ≠ Vec3.mk 0 0 0 := by
    simp [Ray.direction, z_ray]
  have hr : (unit_sphere (7 : ℕ) : Sphere ℝ ℕ).radius ≠ 0 := by
    simp [unit_sphere]
  have ht : ((unit_sphere (7 : ℕ)).hit Real.sqrt (z_ray : Ray ℝ) 0 10 (blank_record 0)).1 = true := by
    rw [unit_sphere_hit_z_ray 7 0 10 _ (by norm_num) two_le_ten]
  exact ⟨real_isSqrt, hd, hr, ht,
    (Sphere_hit_normal_unit Real.sqrt real_isSqrt (unit_sphere (7 : ℕ)) z_ray hd hr 0 10
      (blank_record 0) ht).1⟩

/-- Evaluation of `Sphere::hit` on the sphere of radius `-1`: the same roots `2` and `4` as
for the unit sphere, but the hit at `t = 2` is reported as a back-face hit. -/
theorem hollow_sphere_hit_z_ray (m : M) (t_min : ℝ) (t_max : WithTop ℝ) (rec : hit_record ℝ M)
    (h1 : t_min ≤ 2) (h2 : ((2 : ℝ) : WithTop ℝ) ≤ t_max) :
    (hollow_sphere m).hit Real.sqrt (z_ray : Ray ℝ) t_min t_max rec =
      (true, hit_record.mk (Vec3.mk 0 0 (-1)) (Vec3.mk 0 0 (-1)) m 2 false) := by
  have ho : Sphere.out_of_range (2 : ℝ) t_min t_max = false :=
    (Sphere.out_of_range_eq_false _ _ _).mpr ⟨h1, h2⟩
  simp only [Sphere.hit, Sphere.fill_record, hit_record.set_face_normal,
    Ray.direction, Ray.origin, Ray.at_, Vec3.length_squared, dot, z_ray, hollow_sphere,
    Vec3.sub_x, Vec3.sub_y, Vec3.sub_z]
  norm_num [ho]
  constructor <;> ext <;> norm_num

/-- C22: for a sphere of negative radius `r`, on every successful `Sphere::hit` the vector
`outward_normal = (rec.p - center)/r` handed to `set_face_normal` satisfies
`dot(outward_normal, rec.p - center) = r < 0`, and the front-face flag is true exactly
when `dot(r.direction(), rec.p - center) > 0`. -/
theorem Sphere_hit_negative_radius (sqrt : F → F) (hs : IsSqrt sqrt) (s : Sphere F M)
    (r : Ray F) (hd : r.direction ≠ Vec3.mk 0 0 0) (hr : s.radius < 0) (t_min : F)
    (t_max : WithTop F) (rec : hit_record F M)
    (h : (s.hit sqrt r t_min t_max rec).1 = true) :
    let res : Bool × hit_record F M := s.hit sqrt r t_min t_max rec
    let outward_normal : Vec3 F := (res.2.p - s.center) / s.radius
    dot outward_normal (res.2.p - s.center) = s.radius ∧
      (res.2.inward = true ↔ dot r.direction outward_normal < 0) ∧
      (res.2.inward = true ↔ dot r.direction (res.2.p - s.center) > 0) := by
  intro res outward_normal
  obtain ⟨root, hfill, hon⟩ := Sphere.hit_true_fill sqrt hs s r hd t_min t_max rec h
  have hp : res.2.p = r.at_ root := by
    show (s.hit sqrt r t_min t_max rec).2.p = r.at_ root
    rw [hfill, Sphere.fill_record_p]
  have hin : res.2.inward = true ↔ dot r.direction ((r.at_ root - s.center) / s.radius) < 0 := by
    show (s.hit sqrt r t_min t_max rec).2.inward = true ↔ _
    rw [hfill]
    exact Sphere.fill_record_inward s r root rec
  have hne : s.radius ≠ 0 := ne_of_lt hr
  have hinv : 1 / s.radius < 0 := one_div_neg.mpr hr
  refine ⟨?_, ?_, ?_⟩
  · show dot ((res.2.p - s.center) / s.radius) (res.2.p - s.center) = s.radius
    rw [hp, dot_div_left, ← length_squared_eq_dot, hon]
    field_simp
  · show res.2.inward = true ↔ dot r.direction ((res.2.p - s.center) / s.radius) < 0
    rw [hp]
    exact hin
  · rw [hin, hp, dot_div_right]
    constructor
    · intro hlt
      by_contra hcon
      have := mul_nonneg_of_nonpos_of_nonpos (le_of_lt hinv) (not_lt.mp hcon)
      exact absurd hlt (not_lt.mpr this)
    · intro hgt
      exact mul_neg_of_neg_of_pos hinv hgt

/-- C22 at a concrete input: the shell of radius `-1` hit from outside at `(0,0,-1)`: the
ray direction `(0,0,1)` has dot product `-1` with `rec.p - center`, and the front-face flag
is false. -/
theorem Sphere_hit_negative_radius_witness :
    IsSqrt Real.sqrt ∧ (z_ray : Ray ℝ).direction ≠ Vec3.mk 0 0 0 ∧
      (hollow_sphere (7 : ℕ) : Sphere ℝ ℕ).radius < 0 ∧
      ((hollow_sphere (7 : ℕ)).hit Real.sqrt (z_ray : Ray ℝ) 0 10 (blank_record 0)).1 = true ∧
      dot ((((hollow_sphere (7 : ℕ)).hit Real.sqrt (z_ray : Ray ℝ) 0 10 (blank_record 0)).2.p -
          (hollow_sphere (7 : ℕ) : Sphere ℝ ℕ).center) /
          (hollow_sphere (7 : ℕ) : Sphere ℝ ℕ).radius)
        (((hollow_sphere (7 : ℕ)).hit Real.sqrt (z_ray : Ray ℝ) 0 10 (blank_record 0)).2.p -
          (hollow_sphere (7 : ℕ) : Sphere ℝ ℕ).center) =
        (hollow_sphere (7 : ℕ) : Sphere ℝ ℕ).radius := by
  have hd : (z_ray : Ray ℝ).direction ≠ Vec3.mk 0 0 0 := by
    simp [Ray.direction, z_ray]
  have hr : (hollow_sphere (7 : ℕ) : Sphere ℝ ℕ).radius < 0 := by
    simp [hollow_sphere]
  have ht : ((hollow_sphere (7 : ℕ)).hit Real.sqrt (z_ray : Ray ℝ) 0 10 (blank_record 0)).1 = true := by
    rw [hollow_sphere_hit_z_ray 7 0 10 _ (by norm_num) two_le_ten]
  exact ⟨real_isSqrt, hd, hr, ht,
    (Sphere_hit_negative_radius Real.sqrt real_isSqrt (hollow_sphere (7 : ℕ)) z_ray hd hr 0 10
      (blank_record 0) ht).1⟩

/-! ## Radiance bounds -/

theorem Vec3.in_unit_cube_zero : (Vec3.mk 0 0 0 : Vec3 F).in_unit_cube := by
  simp [Vec3.in_unit_cube]

theorem Vec3.in_unit_cube_mul (a b : Vec3 F) (ha : a.in_unit_cube) (hb : b.in_unit_cube) :
    (a * b).in_unit_cube := by
  obtain ⟨⟨a1, a2⟩, ⟨a3, a4⟩, ⟨a5, a6⟩⟩ := ha
  obtain ⟨⟨b1, b2⟩, ⟨b3, b4⟩, ⟨b5, b6⟩⟩ := hb
  refine ⟨⟨?_, ?_⟩, ⟨?_, ?_⟩, ⟨?_, ?_⟩⟩
  · exact mul_nonneg a1 b1
  · exact mul_le_one₀ a2 b1 b2
  · exact mul_nonneg a3 b3
  · exact mul_le_one₀ a4 b3 b4
  · exact mul_nonneg a5 b5
  · exact mul_le_one₀ a6 b5 b6

/-- The attenuation set by `scatter` is the albedo, or `(1,1,1)` for a dielectric. -/
theorem Material.scatter_attenuation_in_unit_cube (sqrt : F → F) (mat : Material F)
    (hmat : mat.albedo_in_unit_cube) (incoming : Ray F) (rec : hit_record F M) (d : Draw F) :
    (mat.scatter sqrt incoming rec d).2.1.in_unit_cube := by
  cases mat with
  | lambertian m => exact hmat
  | metal m => exact hmat
  | dielectric m =>
    show (Vec3.mk 1 1 1 : Vec3 F).in_unit_cube
    simp [Vec3.in_unit_cube]

/-- The vertical component of a normalised direction lies in `[-1, 1]`. -/
theorem unit_vector_y_bounds (sqrt : F → F) (hs : IsSqrt sqrt) (d : Vec3 F) :
    -1 ≤ (unit_vector sqrt d).y ∧ (unit_vector sqrt d).y ≤ 1 := by
  obtain ⟨hL0, hLL⟩ := hs _ (length_squared_nonneg d)
  show -1 ≤ 1 / sqrt d.length_squared * d.y ∧ 1 / sqrt d.length_squared * d.y ≤ 1
  rcases eq_or_lt_of_le hL0 with h0 | hpos
  · rw [← h0]
    simp
  · have hy2 : d.y * d.y ≤ sqrt d.length_squared * sqrt d.length_squared := by
      rw [hLL]
      unfold Vec3.length_squared
      nlinarith [mul_self_nonneg d.x, mul_self_nonneg d.z]
    have hle : d.y ≤ sqrt d.length_squared := by
      by_contra hcon
      nlinarith [not_le.mp hcon]
    have hge : -sqrt d.length_squared ≤ d.y := by
      by_contra hcon
      nlinarith [not_le.mp hcon]
    have hdiv : 1 / sqrt d.length_squared * d.y = d.y / sqrt d.length_squared := by ring
    rw [hdiv]
    constructor
    · rw [le_div_iff₀ hpos]
      linarith
    · rw [div_le_one hpos]
      exact hle

/-- The background gradient lies in the unit cube. -/
theorem sky_in_unit_cube (sqrt : F → F) (hs : IsSqrt sqrt) (d : Vec3 F) :
    ((1 - 1 / 2 * ((unit_vector sqrt d).y + 1)) * (Vec3.mk 1 1 1 : Vec3 F) +
      (1 / 2 * ((unit_vector sqrt d).y + 1)) * (Vec3.mk (1 / 2) (7 / 10) 1 : Vec3 F)).in_unit_cube := by
  obtain ⟨h1, h2⟩ := unit_vector_y_bounds sqrt hs d
  simp only [Vec3.in_unit_cube, Vec3.add_x, Vec3.add_y, Vec3.add_z, Vec3.smul_x, Vec3.smul_y,
    Vec3.smul_z]
  refine ⟨⟨?_, ?_⟩, ⟨?_, ?_⟩, ⟨?_, ?_⟩⟩ <;> linarith

/-- A reported record carries the material handle of the sphere that reports it. -/
theorem Sphere.reports_mat_ptr (sqrt : F → F) (s : Sphere F M) (r : Ray F) (t_min : F)
    (t_max : WithTop F) (h : hit_record F M) (hrep : s.reports sqrt r t_min t_max h) :
    h.mat_ptr = s.mat_ptr := by
  obtain ⟨t, -, hfill⟩ := (Sphere.reports_iff sqrt s r t_min t_max h h).mp hrep
  have h2 : (Sphere.fill_record s r t h).2 = h := by rw [hfill]
  rw [← h2]
  rfl

/-- The record of a scene hit carries the material of a member of the scene. -/
theorem HittableList.hit_mat_ptr_mem (sqrt : F → F) (hs : IsSqrt sqrt) (l : HittableList F M)
    (r : Ray F) (t_min : F) (t_max : WithTop F) (temp_rec rec : hit_record F M)
    (h : (l.hit sqrt r t_min t_max temp_rec rec).1 = true) :
    ∃ m ∈ l.objects, (l.hit sqrt r t_min t_max temp_rec rec).2.mat_ptr = m.mat_ptr := by
  rcases HittableList.hit_spec sqrt hs l r t_min t_max temp_rec rec with ⟨-, h2⟩ | ⟨-, h2, -⟩
  · rw [h2] at h
    exact absurd h (by simp)
  · obtain ⟨m, hm, hrep⟩ := h2
    exact ⟨m, hm, Sphere.reports_mat_ptr sqrt m r t_min t_max _ hrep⟩

/-- The bound on `ray_color`, by induction on a bound of the recursion budget. -/
theorem ray_color_in_unit_cube_aux (sqrt : F → F) (hs : IsSqrt sqrt) (rnd : ℤ → Draw F)
    (uninit : hit_record F (Material F)) (scene : HittableList F (Material F))
    (halb : ∀ m ∈ scene.objects, m.mat_ptr.albedo_in_unit_cube) (n : ℕ) :
    ∀ (depth : ℤ), depth ≤ (n : ℤ) → ∀ r : Ray F,
      (ray_color sqrt rnd uninit r scene depth).in_unit_cube := by
  induction n with
  | zero =>
    intro depth hdepth r
    rw [ray_color_of_nonpos sqrt rnd uninit r scene depth (by simpa using hdepth)]
    exact Vec3.in_unit_cube_zero
  | succ n ih =>
    intro depth hdepth r
    rcases le_or_lt depth 0 with h0 | hpos
    · rw [ray_color_of_nonpos sqrt rnd uninit r scene depth h0]
      exact Vec3.in_unit_cube_zero
    · rw [ray_color_of_pos sqrt rnd uninit r scene depth hpos]
      split_ifs with hhit hsc
      · obtain ⟨m, hm, hmat⟩ := HittableList.hit_mat_ptr_mem sqrt hs scene r (1 / 1000) ⊤
          uninit uninit hhit
        apply Vec3.in_unit_cube_mul
        · apply Material.scatter_attenuation_in_unit_cube
          rw [hmat]
          exact halb m hm
        · apply ih
          push_cast at hdepth
          linarith
      · exact Vec3.in_unit_cube_zero
      · exact sky_in_unit_cube sqrt hs r.direction

/-- C23: for every scene whose Lambertian and Metal albedos have all components in
`[0,1]`, every ray, every integer depth and every sequence of random draws, each component
of `ray_color(r, scene, depth)` lies in `[0,1]`. -/
theorem ray_color_in_unit_cube (sqrt : F → F) (hs : IsSqrt sqrt) (rnd : ℤ → Draw F)
    (uninit : hit_record F (Material F)) (scene : HittableList F (Material F))
    (halb : ∀ m ∈ scene.objects, m.mat_ptr.albedo_in_unit_cube) (r : Ray F) (depth : ℤ) :
    (0 ≤ (ray_color sqrt rnd uninit r scene depth).x ∧
        (ray_color sqrt rnd uninit r scene depth).x ≤ 1) ∧
      (0 ≤ (ray_color sqrt rnd uninit r scene depth).y ∧
        (ray_color sqrt rnd uninit r scene depth).y ≤ 1) ∧
      (0 ≤ (ray_color sqrt rnd uninit r scene depth).z ∧
        (ray_color sqrt rnd uninit r scene depth).z ≤ 1) :=
  ray_color_in_unit_cube_aux sqrt hs rnd uninit scene halb depth.toNat depth
    (Int.self_le_toNat depth) r

/-- The albedo of `gray` lies in the unit cube. -/
theorem gray_scene_albedo :
    ∀ m ∈ (gray_scene : HittableList ℝ (Material ℝ)).objects, m.mat_ptr.albedo_in_unit_cube := by
  intro m hm
  simp only [gray_scene, List.mem_singleton] at hm
  subst hm
  simp only [unit_sphere, gray, Material.albedo_in_unit_cube, Vec3.in_unit_cube]
  norm_num

/-- C23 at a concrete input: the grey scene seen along the ray from `(0,0,-3)` with a
budget of 3 bounces. -/
theorem ray_color_in_unit_cube_witness :
    IsSqrt Real.sqrt ∧
      (∀ m ∈ (gray_scene : HittableList ℝ (Material ℝ)).objects,
        m.mat_ptr.albedo_in_unit_cube) ∧
      (0 ≤ (ray_color Real.sqrt zero_draw (blank_record gray) (z_ray : Ray ℝ) gray_scene 3).x ∧
        (ray_color Real.sqrt zero_draw (blank_record gray) (z_ray : Ray ℝ) gray_scene 3).x ≤ 1) :=
  ⟨real_isSqrt, gray_scene_albedo,
    (ray_color_in_unit_cube Real.sqrt real_isSqrt zero_draw (blank_record gray) gray_scene
      gray_scene_albedo (z_ray : Ray ℝ) 3).1⟩

/-! ## Refraction -/

theorem dot_add_left (a b n : Vec3 F) : dot (a + b) n = dot a n + dot b n := by
  simp only [dot, Vec3.add_x, Vec3.add_y, Vec3.add_z]
  ring

theorem length_squared_add (a b : Vec3 F) :
    (a + b).length_squared = a.length_squared + 2 * dot a b + b.length_squared := by
  simp only [Vec3.length_squared, dot, Vec3.add_x, Vec3.add_y, Vec3.add_z]
  ring

/-- The Cauchy-Schwarz inequality for unit vectors. -/
theorem dot_mul_self_le_one (v n : Vec3 F) (hv : v.length_squared = 1)
    (hn : n.length_squared = 1) : dot v n * dot v n ≤ 1 := by
  have h := length_squared_nonneg (cross v n)
  rw [length_squared_cross, hv, hn] at h
  linarith

/-- The shape of `refract` on unit vectors: the tangential part `eta * (v - (v.n) n)` plus
a multiple `-T` of the normal, where `T ≥ 0` and `T^2 = 1 - eta^2 (1 - (v.n)^2)`. -/
theorem refract_shape (sqrt : F → F) (hs : IsSqrt sqrt) (v n : Vec3 F) (eta : F)
    (hv : v.length_squared = 1) (hn : n.length_squared = 1) (heta : 0 ≤ eta)
    (hsin : eta * sqrt (1 - dot v n ^ 2) ≤ 1) :
    ∃ T : F, 0 ≤ T ∧ T * T = 1 - eta * eta * (1 - dot v n * dot v n) ∧
      refract sqrt v n eta = eta * (v + (-(dot v n)) * n) + (-T) * n := by
  have hcs := dot_mul_self_le_one v n hv hn
  have hcos : min (dot (-v) n) 1 = -(dot v n) := by
    rw [dot_neg_left]
    apply min_eq_left
    nlinarith
  have hw : (v + (-(dot v n)) * n).length_squared = 1 - dot v n * dot v n := by
    rw [length_squared_add, dot_smul_right, length_squared_smul, hv, hn]
    ring
  have hperp : (eta * (v + (-(dot v n)) * n)).length_squared =
      eta * eta * (1 - dot v n * dot v n) := by
    rw [length_squared_smul, hw]
  obtain ⟨hS0, hSS⟩ := hs (1 - dot v n ^ 2) (by rw [pow_two]; linarith)
  have hq : 0 ≤ 1 - eta * eta * (1 - dot v n * dot v n) := by
    have h1 : 0 ≤ eta * sqrt (1 - dot v n ^ 2) := mul_nonneg heta hS0
    have h2 : eta * sqrt (1 - dot v n ^ 2) * (eta * sqrt (1 - dot v n ^ 2)) ≤ 1 := by
      nlinarith
    have h3 : eta * sqrt (1 - dot v n ^ 2) * (eta * sqrt (1 - dot v n ^ 2)) =
        eta * eta * (1 - dot v n * dot v n) := by
      linear_combination (eta * eta) * hSS
    linarith
  obtain ⟨hT0, hTT⟩ := hs _ hq
  refine ⟨sqrt (1 - eta * eta * (1 - dot v n * dot v n)), hT0, hTT, ?_⟩
  simp only [refract, hcos, hperp, abs_of_nonneg hq]

/-- C24: for unit vectors `v` and `n` and a ratio `eta ≥ 0` with
`eta * sqrt(1 - dot(v,n)^2) ≤ 1`, `refract(v, n, eta)` has length 1, its component
perpendicular to `n` is `eta` times the component of `v` perpendicular to `n`, and its
component along `n` is non-positive. -/
theorem refract_snell (sqrt : F → F) (hs : IsSqrt sqrt) (v n : Vec3 F) (eta : F)
    (hv : v.length_squared = 1) (hn : n.length_squared = 1) (heta : 0 ≤ eta)
    (hsin : eta * sqrt (1 - dot v n ^ 2) ≤ 1) :
    (refract sqrt v n eta).length sqrt = 1 ∧
      (refract sqrt v n eta).length_squared = 1 ∧
      refract sqrt v n eta - dot (refract sqrt v n eta) n * n =
        eta * (v - dot v n * n) ∧
      dot (refract sqrt v n eta) n ≤ 0 := by
  obtain ⟨T, hT0, hTT, hR⟩ := refract_shape sqrt hs v n eta hv hn heta hsin
  have hnn : dot n n = 1 := hn
  have hpn : dot (eta * (v + (-(dot v n)) * n)) n = 0 := by
    rw [dot_smul_left, dot_add_left, dot_smul_left, hnn]
    ring
  have hRn : dot (refract sqrt v n eta) n = -T := by
    rw [hR, dot_add_left, hpn, dot_smul_left, hnn]
    ring
  have hls : (refract sqrt v n eta).length_squared = 1 := by
    rw [hR, length_squared_add, dot_smul_right, hpn, length_squared_smul, length_squared_smul,
      hn]
    have hw : (v + (-(dot v n)) * n).length_squared = 1 - dot v n * dot v n := by
      rw [length_squared_add, dot_smul_right, length_squared_smul, hv, hn]
      ring
    rw [hw]
    linear_combination hTT
  refine ⟨?_, hls, ?_, ?_⟩
  · show sqrt (refract sqrt v n eta).length_squared = 1
    rw [hls]
    exact IsSqrt.one sqrt hs
  · rw [hRn, hR]
    ext <;> simp only [Vec3.sub_x, Vec3.sub_y, Vec3.sub_z, Vec3.add_x, Vec3.add_y, Vec3.add_z,
      Vec3.smul_x, Vec3.smul_y, Vec3.smul_z] <;> ring
  · rw [hRn]
    linarith

/-- C24 at a concrete input: the ray along `(0,0,1)` meeting the normal `(0,0,-1)` head-on
with `eta = 1/2` is refracted to a direction of length one. -/
theorem refract_snell_witness :
    IsSqrt Real.sqrt ∧ (Vec3.mk 0 0 1 : Vec3 ℝ).length_squared = 1 ∧
      (Vec3.mk 0 0 (-1) : Vec3 ℝ).length_squared = 1 ∧ (0 : ℝ) ≤ 1 / 2 ∧
      (1 / 2 : ℝ) * Real.sqrt (1 - dot (Vec3.mk 0 0 1 : Vec3 ℝ) (Vec3.mk 0 0 (-1)) ^ 2) ≤ 1 ∧
      (refract Real.sqrt (Vec3.mk 0 0 1 : Vec3 ℝ) (Vec3.mk 0 0 (-1)) (1 / 2)).length Real.sqrt
        = 1 := by
  have hv : (Vec3.mk 0 0 1 : Vec3 ℝ).length_squared = 1 := by
    simp [Vec3.length_squared]
  have hn : (Vec3.mk 0 0 (-1) : Vec3 ℝ).length_squared = 1 := by
    simp [Vec3.length_squared]
  have hsin : (1 / 2 : ℝ) *
      Real.sqrt (1 - dot (Vec3.mk 0 0 1 : Vec3 ℝ) (Vec3.mk 0 0 (-1)) ^ 2) ≤ 1 := by
    simp [dot]
  exact ⟨real_isSqrt, hv, hn, by norm_num, hsin,
    (refract_snell Real.sqrt real_isSqrt (Vec3.mk 0 0 1) (Vec3.mk 0 0 (-1)) (1 / 2) hv hn
      (by norm_num) hsin).1⟩

end Raytracer
